import Mathlib

/-!
A shallow embedding of the sol_qmedian palette quantizer (single-header
median-cut color quantization library) together with proofs about its
behaviour.  The C library keeps colors in singly linked lists; here a group
of colors is a `List sqi_colorstruc`, and each destructive pointer operation
is rendered as the corresponding pure list transformation.  Machine
`unsigned char` stores are modelled by an explicit `% 256`.
-/

namespace SolQMedian

/-- One color node (struct sqi_colorstruc): the original registration index
(`coloridx`) and the three component bytes.  The always-zero fourth
component byte is omitted. -/
structure sqi_colorstruc where
  coloridx : Nat
  r : Nat
  g : Nat
  b : Nat
  deriving DecidableEq, Repr

/-- Channel accessor: component[0] = r, component[1] = g, component[2] = b. -/
def sqi_comp (c : sqi_colorstruc) (i : Fin 3) : Nat :=
  if i.val = 0 then c.r else if i.val = 1 then c.g else c.b

/-- The union sqi_colorchunk's view of the four component bytes as a single
machine word (`data.block`).  The code only ever tests blocks for equality
and overwrites them wholesale, so the byte order inside the word is
irrelevant; we fix the little-endian packing, with the fourth byte 0. -/
def sqi_block (c : sqi_colorstruc) : Nat :=
  c.r + 256 * c.g + 65536 * c.b

/-- An input color triple as handed to sq_addcolormap. -/
abbrev RGB := Nat × Nat × Nat

/-- sq_addcolormap / sqi_add_color over the flattened sequence of all
registered color maps: each color gets the running total as its `coloridx`,
and its components are stored into `unsigned char` fields (hence `% 256`;
in C the values are read from unsigned char memory and are below 256
already). -/
def sq_register (cols : List RGB) : List sqi_colorstruc :=
  cols.enum.map (fun p => ⟨p.1, p.2.1 % 256, p.2.2.1 % 256, p.2.2.2 % 256⟩)

/-- sqi_sort_group: one-pass bucket (radix) sort by one component.  In the C
code bucket[a] collects, in input order, exactly the colors whose chosen
component byte equals a (appending each node at the bucket's tail), and the
non-empty buckets are then relinked in ascending bucket order; empty buckets
contribute nothing, so the result is the concatenation over all 256 bucket
values of the in-order sublists. -/
def sqi_sort_group (col : List sqi_colorstruc) (component : Fin 3) : List sqi_colorstruc :=
  ((List.range 256).map (fun a => col.filter (fun c => sqi_comp c component == a))).flatten

/-- The running statistics of sqi_examine_group's while loop: per-channel
minimum, maximum and sum. -/
structure sqi_exstate where
  rmin : Nat
  rmax : Nat
  gmin : Nat
  gmax : Nat
  bmin : Nat
  bmax : Nat
  rs : Nat
  gs : Nat
  bs : Nat
  deriving DecidableEq, Repr

/-- Body of sqi_examine_group's while loop: update each channel's min, max
and sum with the next color (the `if (rmin > v) rmin = v;` chains). -/
def sqi_exstep (st : sqi_exstate) (c : sqi_colorstruc) : sqi_exstate :=
  { rmin := min st.rmin c.r, rmax := max st.rmax c.r, rs := st.rs + c.r,
    gmin := min st.gmin c.g, gmax := max st.gmax c.g, gs := st.gs + c.g,
    bmin := min st.bmin c.b, bmax := max st.bmax c.b, bs := st.bs + c.b }

/-- The selection at the end of sqi_examine_group: start with the red
spread, replace it with a later channel's only when that spread is strictly
greater (the two trailing if-blocks of the C function). -/
def sqi_exselect (st : sqi_exstate) : Fin 3 × Nat × Nat :=
  let s1 : Fin 3 × Nat × Nat := (0, st.rmax - st.rmin, st.rs)
  let s2 : Fin 3 × Nat × Nat :=
    if st.gmax - st.gmin > s1.2.1 then (1, st.gmax - st.gmin, st.gs) else s1
  if st.bmax - st.bmin > s2.2.1 then (2, st.bmax - st.bmin, st.bs) else s2

/-- sqi_examine_group: statistics are seeded from the first color and folded
over the rest; then the largest spread (max - min) is selected.  Returns
(component, size, sum).  On the empty list the C code dereferences NULL
(undefined behaviour); every call site passes a non-empty group, and the []
equation returns a junk value. -/
def sqi_examine_group : List sqi_colorstruc → Fin 3 × Nat × Nat
  | [] => (0, 0, 0)
  | c :: rest =>
    sqi_exselect (rest.foldl sqi_exstep ⟨c.r, c.r, c.g, c.g, c.b, c.b, c.r, c.g, c.b⟩)

/-- The while loop of sqi_cut_group.  `count` is the running total before
the current node; the loop keeps walking while `count <= median`.  On exit,
`second` is the color whose component pushed the total past the median and
`fore` is the node before it; the returned pair is (the colors strictly
before the crossing color, the list from the crossing color on).  Walking
past the end of the list - possible only when the whole channel sum is at
most `median` - dereferences NULL in C (undefined behaviour) and is
modelled as `none`. -/
def sqi_cut_loop (component : Fin 3) (median : Nat) :
    Nat → List sqi_colorstruc → Option (List sqi_colorstruc × List sqi_colorstruc)
  | _, [] => none
  | count, c :: rest =>
    let count2 := count + sqi_comp c component
    if count2 ≤ median then
      match sqi_cut_loop component median count2 rest with
      | none => none
      | some (front, back) => some (c :: front, back)
    else
      some ([], c :: rest)

/-- sqi_cut_group: cut a group in two at the median of the chosen component.
`mx` is the caller-supplied channel sum; median = mx / 2.  Returns
(what remains in group[i], the newly returned group), or `none` when the C
code returns NULL (fore == NULL and the crossing color has no successor:
the group was a single color) or crashes (walk past the end).  When
`fore == NULL` (the very first color crossed the median) group[i] is
truncated to just that first color and the rest is returned. -/
def sqi_cut_group (gl : List sqi_colorstruc) (component : Fin 3) (mx : Nat) :
    Option (List sqi_colorstruc × List sqi_colorstruc) :=
  match sqi_cut_loop component (mx / 2) 0 gl with
  | none => none
  | some ([], c :: rest) => if rest = [] then none else some ([c], rest)
  | some (front, back) => some (front, back)

/-- The scan loop of sqi_dupenuke.  The state (lastidx, lastcol) is the
original index and packed color block of the most recently seen
non-duplicate.  A color whose block equals lastcol has its data.block
overwritten with lastidx (a back-reference into the surviving set), is
unlinked from the active list and appended to the zero list; we record it
as the pair (its coloridx, lastidx).  A distinct color stays and becomes
the new (lastidx, lastcol). -/
def sqi_dupescan (lastidx lastcol : Nat) :
    List sqi_colorstruc → List sqi_colorstruc × List (Nat × Nat)
  | [] => ([], [])
  | c :: rest =>
    if sqi_block c = lastcol then
      let p := sqi_dupescan lastidx lastcol rest
      (p.1, (c.coloridx, lastidx) :: p.2)
    else
      let p := sqi_dupescan c.coloridx (sqi_block c) rest
      (c :: p.1, p.2)

/-- The three sorting passes at the top of sqi_dupenuke: sort the working
set by component 0, then 1, then 2 (red, then green, then blue), leaving
identical colors adjacent. -/
def sqi_dupesort (l : List sqi_colorstruc) : List sqi_colorstruc :=
  sqi_sort_group (sqi_sort_group (sqi_sort_group l 0) 1) 2

/-- sqi_dupenuke: run the three sorting passes, then collapse adjacent
duplicates.  Returns (active colors, zero list).  On an empty color list
the C code dereferences NULL; sq_reduce is modelled only for non-empty
inputs. -/
def sqi_dupenuke (l : List sqi_colorstruc) :
    List sqi_colorstruc × List (Nat × Nat) :=
  match sqi_dupesort l with
  | [] => ([], [])
  | c :: rest =>
    let p := sqi_dupescan c.coloridx (sqi_block c) rest
    (c :: p.1, p.2)

/-- One entry of sq_reduce's parallel per-group arrays: group[i] (the list
of member colors), groupcomponent, groupcomponentsize, groupcomponentsum,
and groupsorted (whose initial -1 is modelled as `none`). -/
structure SplitGroup where
  cols : List sqi_colorstruc
  comp : Fin 3
  size : Nat
  sum : Nat
  sortedBy : Option (Fin 3)
  deriving DecidableEq, Repr

/-- Placeholder group used for out-of-range array reads (never reached from
sq_reduce, whose indices stay in bounds). -/
def emptyGroup : SplitGroup := ⟨[], 0, 0, 0, none⟩

/-- Store sqi_examine_group's analysis of a member list alongside it,
carrying the given groupsorted flag. -/
def mkGroup (l : List sqi_colorstruc) (s : Option (Fin 3)) : SplitGroup :=
  let e := sqi_examine_group l
  ⟨l, e.1, e.2.1, e.2.2, s⟩

/-- The "find largest group" scan of the split loop: i = 0; for each
n < groups, i becomes n when groupcomponentsize[n] is strictly greater
than groupcomponentsize[i]; ties keep the lower index. -/
def selectLargest (gs : List SplitGroup) : Nat :=
  (List.range gs.length).foldl
    (fun i n => if (gs.getD n emptyGroup).size > (gs.getD i emptyGroup).size then n else i) 0

/-- The group picked by one split-loop iteration, after the conditional
re-sort: group[selectLargest gs], re-sorted by its split component when
groupsorted disagrees with groupcomponent. -/
def selectedGroup (gs : List SplitGroup) : SplitGroup :=
  if (gs.getD (selectLargest gs) emptyGroup).sortedBy ≠
      some (gs.getD (selectLargest gs) emptyGroup).comp then
    { gs.getD (selectLargest gs) emptyGroup with
        cols := sqi_sort_group (gs.getD (selectLargest gs) emptyGroup).cols
          (gs.getD (selectLargest gs) emptyGroup).comp,
        sortedBy := some (gs.getD (selectLargest gs) emptyGroup).comp }
  else gs.getD (selectLargest gs) emptyGroup

/-- The split loop of sq_reduce, fuel-indexed (the C loop runs while
groups < palwid).  Each iteration selects the group with the largest
recorded spread, re-sorts it by its split component if groupsorted
disagrees, cuts it at the median, and on success re-analyzes both halves,
appending the new group.  Returns the final group list and whether the
loop ended through the break (cut-failure) branch; the in-place re-sort of
group i persists even on the break path, as in the source. -/
def sq_split_loop (palwid : Nat) : Nat → List SplitGroup → List SplitGroup × Bool
  | 0, gs => (gs, false)
  | fuel + 1, gs =>
    if gs.length < palwid then
      match sqi_cut_group (selectedGroup gs).cols (selectedGroup gs).comp
          (selectedGroup gs).sum with
      | none => (gs.set (selectLargest gs) (selectedGroup gs), true)
      | some (front, back) =>
        sq_split_loop palwid fuel
          ((gs.set (selectLargest gs) (mkGroup front (selectedGroup gs).sortedBy)) ++
            [mkGroup back (selectedGroup gs).sortedBy])
    else (gs, false)

/-- A default color for head reads of (unreachable) empty groups. -/
def dummyColor : sqi_colorstruc := ⟨0, 0, 0, 0⟩

/-- One synthesized palette entry (the palette-build loop body): the
per-channel rounded mean (sum + count/2) / count when the recorded spread
exceeds 1, otherwise the first member's exact color.  The stores go into
unsigned char palette bytes, hence % 256 (the values are below 256
anyway). -/
def palEntry (gr : SplitGroup) : RGB :=
  let cnt := gr.cols.length
  let s0 := (gr.cols.map (fun c => c.r)).sum
  let s1 := (gr.cols.map (fun c => c.g)).sum
  let s2 := (gr.cols.map (fun c => c.b)).sum
  if gr.size > 1 then
    (((s0 + cnt / 2) / cnt) % 256, ((s1 + cnt / 2) / cnt) % 256, ((s2 + cnt / 2) / cnt) % 256)
  else
    ((gr.cols.headD dummyColor).r % 256,
     (gr.cols.headD dummyColor).g % 256,
     (gr.cols.headD dummyColor).b % 256)

/-- The palette-build loop's index-map writes: for each group i the loop
executes `*(*idxmap + col->coloridx) = i;` once, with col = group[i], i.e.
only the FIRST member's original index receives the group number (stored
into an unsigned char, hence % 256); the remaining members keep the
calloc'ed value 0. -/
def sq_synth_idxmap (gs : List SplitGroup) (idxmap : List Nat) : List Nat :=
  gs.enum.foldl (fun m p => m.set (p.2.cols.headD dummyColor).coloridx (p.1 % 256)) idxmap

/-- Resolve the zero list against a built index map:
`*(*idxmap + col->coloridx) = *(*idxmap + col->data.block);` for each
collapsed duplicate, in list order. -/
def sq_resolve_zeros (zer : List (Nat × Nat)) (idxmap : List Nat) : List Nat :=
  zer.foldl (fun m p => m.set p.1 (m.getD p.2 0)) idxmap

/-- The result of sq_reduce: the index map (one byte per registered color),
the synthesized palette and the achieved width (sq_reduce's return value). -/
structure SQResult where
  idxmap : List Nat
  pal : List RGB
  width : Nat
  deriving DecidableEq, Repr

/-- The "Fits" path of sq_reduce (distinct colors ≤ palwid): sort the
distinct colors by component 0, then 2, then 1, assign each its position as
its palette index (an unsigned char write), copy the sorted colors into the
palette, and resolve the duplicates.  This path returns early and never
runs the SQI_RE_SORT pass.  `palwid` is the already-reassigned achieved
width q->colors - q->zeros. -/
def sq_fits (act : List sqi_colorstruc) (zer : List (Nat × Nat))
    (n palwid : Nat) : SQResult :=
  { idxmap := sq_resolve_zeros zer
      ((sqi_sort_group (sqi_sort_group (sqi_sort_group act 0) 2) 1).enum.foldl
        (fun m p => m.set p.2.coloridx (p.1 % 256)) (List.replicate n 0)),
    pal := (sqi_sort_group (sqi_sort_group (sqi_sort_group act 0) 2) 1).map
      (fun c => (c.r % 256, c.g % 256, c.b % 256)),
    width := palwid }

/-- The deduplicated working set of the reduction pipeline: register all
input colors, then run sqi_dupenuke once. -/
def sq_stage_dn (cols : List RGB) : List sqi_colorstruc × List (Nat × Nat) :=
  sqi_dupenuke (sq_register cols)

/-- The group list at the end of sq_reduce's split loop (the non-Fits
path), started from the single group of all distinct colors with
groupsorted[0] = -1. -/
def sq_stage_groups (cols : List RGB) (palwid : Nat) : List SplitGroup :=
  (sq_split_loop palwid palwid [mkGroup (sq_stage_dn cols).1 none]).1

/-- The synthesized palette buffer of the split path: one entry per built
group, in the calloc'ed palwid-entry palette buffer (unwritten trailing
entries remain (0,0,0)). -/
def sq_synth_pal (cols : List RGB) (palwid : Nat) : List RGB :=
  (sq_stage_groups cols palwid).map palEntry ++
    List.replicate (palwid - (sq_stage_groups cols palwid).length) ((0 : Nat), (0 : Nat), (0 : Nat))

/-- The split path's index map just before the SQI_RE_SORT remap: the
per-group head writes followed by the zero-list resolution. -/
def sq_stage_idx (cols : List RGB) (palwid : Nat) : List Nat :=
  sq_resolve_zeros (sq_stage_dn cols).2
    (sq_synth_idxmap (sq_stage_groups cols palwid) (List.replicate cols.length 0))

/-- sq_reduce, fuel-indexed to render the single level of SQI_RE_SORT
recursion (the inner call always takes the early-returning Fits path, so
fuel 2 suffices).  `none` models the undefined cases: an empty input
(sqi_dupenuke dereferences NULL) and palwid = 0 (group[0] is stored out of
bounds).  In the split path the SQI_RE_SORT pass re-quantizes the
synthesized palette buffer at the same width and remaps every index-map
byte through the inner index map. -/
def sq_reduceF : Nat → List RGB → Nat → Option SQResult
  | 0, _, _ => none
  | fuel + 1, cols, palwid =>
    if cols.isEmpty ∨ palwid = 0 then none
    else if cols.length - (sq_stage_dn cols).2.length ≤ palwid then
      some (sq_fits (sq_stage_dn cols).1 (sq_stage_dn cols).2 cols.length
        (cols.length - (sq_stage_dn cols).2.length))
    else
      match sq_reduceF fuel (sq_synth_pal cols palwid) palwid with
      | none => none
      | some inner =>
        some { idxmap := (sq_stage_idx cols palwid).map (fun v => inner.idxmap.getD v 0),
               pal := inner.pal,
               width := inner.width }

/-- sq_reduce's public entry point: the recursion depth is exactly two
(the inner SQI_RE_SORT call always hits the Fits path, which returns before
its own SQI_RE_SORT block). -/
def sq_reduce (cols : List RGB) (palwid : Nat) : Option SQResult :=
  sq_reduceF 2 cols palwid

/-! ## Specification-level channel statistics -/

/-- The list of one channel's byte values over a group. -/
def chanVals (l : List sqi_colorstruc) (ch : Fin 3) : List Nat :=
  l.map (fun c => sqi_comp c ch)

/-- A channel's value sum over a group. -/
def chanSum (l : List sqi_colorstruc) (ch : Fin 3) : Nat := (chanVals l ch).sum

/-- A channel's maximum over a group (0 for the empty group). -/
def chanMax (l : List sqi_colorstruc) (ch : Fin 3) : Nat := (chanVals l ch).foldl max 0

/-- A channel's minimum over a group (0 for the empty group). -/
def chanMin (l : List sqi_colorstruc) (ch : Fin 3) : Nat :=
  match chanVals l ch with
  | [] => 0
  | v :: vs => vs.foldl min v

/-- A channel's spread (max - min) over a group. -/
def chanSpread (l : List sqi_colorstruc) (ch : Fin 3) : Nat :=
  chanMax l ch - chanMin l ch

/-- A color whose three component fields are genuine byte values. -/
def ByteColor (c : sqi_colorstruc) : Prop :=
  c.r < 256 ∧ c.g < 256 ∧ c.b < 256

/-- The lexicographic key (blue, green, red) that the three stable passes of
sqi_dupenuke (sort by component 0, then 1, then 2) establish. -/
def lexKey (c : sqi_colorstruc) : Nat :=
  (c.b * 256 + c.g) * 256 + c.r

/-- The folded sqi_exstate over the tail, seeded from the head: exactly the
state sqi_examine_group builds internally. -/
def exState (c : sqi_colorstruc) (rest : List sqi_colorstruc) : sqi_exstate :=
  rest.foldl sqi_exstep ⟨c.r, c.r, c.g, c.g, c.b, c.b, c.r, c.g, c.b⟩

/-- The number of colors strictly before the crossing color: how many
colors the cut loop consumes while the running total stays at or below the
median. -/
def crossIdx (component : Fin 3) (median : Nat) : Nat → List sqi_colorstruc → Nat
  | _, [] => 0
  | count, c :: rest =>
    if count + sqi_comp c component ≤ median then
      crossIdx component median (count + sqi_comp c component) rest + 1
    else 0

/-- Invariant carried through the split loop: every group is non-empty,
the groups partition the deduplicated working set, and each group's
recorded component, size and sum agree with sqi_examine_group's
characterization of its current member list. -/
def GoodGroups (A : List sqi_colorstruc) (gs : List SplitGroup) : Prop :=
  (∀ g ∈ gs, g.cols ≠ []) ∧
    ((gs.map (fun g => g.cols)).flatten).Perm A ∧
    (∀ g ∈ gs, g.size = chanSpread g.cols g.comp ∧ g.sum = chanSum g.cols g.comp ∧
      ∀ ch : Fin 3, chanSpread g.cols ch ≤ g.size)

/-- The number of channel-distinct colors among the registered colors. -/
def distinctColorCount (cols : List RGB) : Nat :=
  (((sq_register cols).map sqi_block).dedup).length

/-- The result of the SQI_RE_SORT pass's inner sq_reduce call: the
synthesized palette buffer re-quantized at the same width.  The inner call
always hits the Fits path, because a W-entry buffer has at most W distinct
colors. -/
def innerFits (cols : List RGB) (W : Nat) : SQResult :=
  sq_fits (sq_stage_dn (sq_synth_pal cols W)).1 (sq_stage_dn (sq_synth_pal cols W)).2
    (sq_synth_pal cols W).length
    ((sq_synth_pal cols W).length - (sq_stage_dn (sq_synth_pal cols W)).2.length)

/-- Spec-modelled cut (for comparison with the source's sqi_cut_group, not
translated from it): walk accumulating channel values until the running
total exceeds the median, cut AFTER the color that caused the crossing so
the prefix includes it, and fail exactly when that leaves no remainder. -/
def sqi_cut_group_claimed (gl : List sqi_colorstruc) (component : Fin 3) (mx : Nat) :
    Option (List sqi_colorstruc × List sqi_colorstruc) :=
  if crossIdx component (mx / 2) 0 gl + 1 < gl.length then
    some (gl.take (crossIdx component (mx / 2) 0 gl + 1),
          gl.drop (crossIdx component (mx / 2) 0 gl + 1))
  else none

/-- Spec-modelled duplicate-collapse sort (for comparison with the source's
sqi_dupesort, not translated from it): the three stable passes in the
claimed order red, then blue, then green. -/
def sqi_dupesort_claimed (l : List sqi_colorstruc) : List sqi_colorstruc :=
  sqi_sort_group (sqi_sort_group (sqi_sort_group l 0) 2) 1

/-- Five distinct colors whose two split groups synthesize the same
averaged palette entry, so the SQI_RE_SORT pass shrinks the width below
min(distinct, requested). -/
def C1ex : List RGB := [(9, 2, 0), (10, 0, 0), (10, 1, 0), (10, 2, 0), (11, 0, 0)]

/-- Four distinct colors that split into the two groups {0,1} and {2,3}:
group 1's second member (original index 3) never receives its slot number. -/
def C2ex : List RGB := [(0, 0, 0), (10, 0, 0), (11, 0, 0), (12, 0, 0)]

/-- 257 distinct colors: at width 257 the Fits path stores palette index
256 into an unsigned char, truncating it to 0, so slot 256 goes unmapped. -/
def C8ex : List RGB := (List.range 257).map (fun i => (i % 256, i / 256, 0))

theorem ByteColor.comp_lt {c : sqi_colorstruc} (h : ByteColor c) (ch : Fin 3) :
    sqi_comp c ch < 256 := by
  unfold sqi_comp
  split
  · exact h.1
  · split
    · exact h.2.1
    · exact h.2.2

theorem sq_register_length (cols : List RGB) : (sq_register cols).length = cols.length := by
  simp [sq_register]

theorem sq_register_bytes {cols : List RGB} {c : sqi_colorstruc}
    (h : c ∈ sq_register cols) : ByteColor c := by
  unfold sq_register at h
  rw [List.mem_map] at h
  obtain ⟨p, _, rfl⟩ := h
  exact ⟨Nat.mod_lt _ (by omega), Nat.mod_lt _ (by omega), Nat.mod_lt _ (by omega)⟩

theorem le_foldl_max (l : List Nat) : ∀ a : Nat, a ≤ l.foldl max a ∧ ∀ x ∈ l, x ≤ l.foldl max a := by
  induction l with
  | nil => intro a; exact ⟨le_refl _, by simp⟩
  | cons y t ih =>
    intro a
    refine ⟨le_trans (le_max_left a y) (ih (max a y)).1, ?_⟩
    intro x hx
    rcases List.mem_cons.mp hx with h | h
    · subst h; exact le_trans (le_max_right a x) (ih (max a x)).1
    · exact (ih (max a y)).2 x h

theorem foldl_max_mem (l : List Nat) : ∀ a : Nat, l.foldl max a = a ∨ l.foldl max a ∈ l := by
  induction l with
  | nil => intro a; exact Or.inl rfl
  | cons y t ih =>
    intro a
    rcases ih (max a y) with h | h
    · rcases Nat.le_total a y with hy | hy
      · rw [List.foldl_cons, h, max_eq_right hy]; exact Or.inr (List.mem_cons_self _ _)
      · rw [List.foldl_cons, h, max_eq_left hy]; exact Or.inl rfl
    · exact Or.inr (List.mem_cons_of_mem _ h)

theorem foldl_min_le (l : List Nat) : ∀ a : Nat, l.foldl min a ≤ a ∧ ∀ x ∈ l, l.foldl min a ≤ x := by
  induction l with
  | nil => intro a; exact ⟨le_refl _, by simp⟩
  | cons y t ih =>
    intro a
    refine ⟨le_trans (ih (min a y)).1 (min_le_left a y), ?_⟩
    intro x hx
    rcases List.mem_cons.mp hx with h | h
    · subst h; exact le_trans (ih (min a x)).1 (min_le_right a x)
    · exact (ih (min a y)).2 x h

theorem foldl_min_mem (l : List Nat) : ∀ a : Nat, l.foldl min a = a ∨ l.foldl min a ∈ l := by
  induction l with
  | nil => intro a; exact Or.inl rfl
  | cons y t ih =>
    intro a
    rcases ih (min a y) with h | h
    · rcases Nat.le_total a y with hy | hy
      · rw [List.foldl_cons, h, min_eq_left hy]; exact Or.inl rfl
      · rw [List.foldl_cons, h, min_eq_right hy]; exact Or.inr (List.mem_cons_self _ _)
    · exact Or.inr (List.mem_cons_of_mem _ h)

theorem le_chanMax {l : List sqi_colorstruc} {x : sqi_colorstruc} (hx : x ∈ l) (ch : Fin 3) :
    sqi_comp x ch ≤ chanMax l ch :=
  (le_foldl_max (chanVals l ch) 0).2 _ (List.mem_map_of_mem _ hx)

theorem chanMax_mem {l : List sqi_colorstruc} (h : l ≠ []) (ch : Fin 3) :
    ∃ x ∈ l, sqi_comp x ch = chanMax l ch := by
  rcases foldl_max_mem (chanVals l ch) 0 with h0 | hm
  · cases l with
    | nil => exact absurd rfl h
    | cons c t =>
      refine ⟨c, List.mem_cons_self _ _, ?_⟩
      have := le_chanMax (List.mem_cons_self c t) ch
      rw [chanMax, h0] at *
      omega
  · rw [chanVals, List.mem_map] at hm
    obtain ⟨x, hx, hx2⟩ := hm
    exact ⟨x, hx, hx2⟩

theorem chanMin_le {l : List sqi_colorstruc} {x : sqi_colorstruc} (hx : x ∈ l) (ch : Fin 3) :
    chanMin l ch ≤ sqi_comp x ch := by
  cases l with
  | nil => cases hx
  | cons c t =>
    rcases List.mem_cons.mp hx with h | h
    · subst h
      exact (foldl_min_le (chanVals t ch) (sqi_comp x ch)).1
    · exact (foldl_min_le (chanVals t ch) (sqi_comp c ch)).2 _ (List.mem_map_of_mem _ h)

theorem chanMin_mem {l : List sqi_colorstruc} (h : l ≠ []) (ch : Fin 3) :
    ∃ x ∈ l, sqi_comp x ch = chanMin l ch := by
  cases l with
  | nil => exact absurd rfl h
  | cons c t =>
    rcases foldl_min_mem (chanVals t ch) (sqi_comp c ch) with h0 | hm
    · exact ⟨c, List.mem_cons_self _ _, h0.symm⟩
    · rw [chanVals, List.mem_map] at hm
      obtain ⟨x, hx, hx2⟩ := hm
      exact ⟨x, List.mem_cons_of_mem _ hx, hx2⟩

theorem chanSum_perm {l l' : List sqi_colorstruc} (h : l.Perm l') (ch : Fin 3) :
    chanSum l ch = chanSum l' ch :=
  List.Perm.sum_eq (h.map _)

theorem chanMax_perm {l l' : List sqi_colorstruc} (h : l.Perm l') (ch : Fin 3) :
    chanMax l ch = chanMax l' ch := by
  rcases List.eq_nil_or_concat l with rfl | _
  · rw [h.nil_eq.symm]
  all_goals
  have hne : l ≠ [] := by rintro rfl; simp_all
  have hne' : l' ≠ [] := by rintro rfl; exact hne h.eq_nil
  apply Nat.le_antisymm
  · obtain ⟨x, hx, he⟩ := chanMax_mem hne ch
    exact he ▸ le_chanMax (h.mem_iff.mp hx) ch
  · obtain ⟨x, hx, he⟩ := chanMax_mem hne' ch
    exact he ▸ le_chanMax (h.mem_iff.mpr hx) ch

theorem chanMin_perm {l l' : List sqi_colorstruc} (h : l.Perm l') (ch : Fin 3) :
    chanMin l ch = chanMin l' ch := by
  rcases List.eq_nil_or_concat l with rfl | _
  · rw [h.nil_eq.symm]
  all_goals
  have hne : l ≠ [] := by rintro rfl; simp_all
  have hne' : l' ≠ [] := by rintro rfl; exact hne h.eq_nil
  apply Nat.le_antisymm
  · obtain ⟨x, hx, he⟩ := chanMin_mem hne' ch
    exact he ▸ chanMin_le (h.mem_iff.mpr hx) ch
  · obtain ⟨x, hx, he⟩ := chanMin_mem hne ch
    exact he ▸ chanMin_le (h.mem_iff.mp hx) ch

theorem chanSpread_perm {l l' : List sqi_colorstruc} (h : l.Perm l') (ch : Fin 3) :
    chanSpread l ch = chanSpread l' ch := by
  rw [chanSpread, chanSpread, chanMax_perm h, chanMin_perm h]

theorem chanMax_le_chanSum {l : List sqi_colorstruc} (h : l ≠ []) (ch : Fin 3) :
    chanMax l ch ≤ chanSum l ch := by
  obtain ⟨x, hx, he⟩ := chanMax_mem h ch
  rw [← he]
  exact List.single_le_sum (fun _ _ => Nat.zero_le _) _ (List.mem_map_of_mem _ hx)

/-! ## Bucket sort: permutation, sortedness, stability -/

theorem sum_map_range_single (f : Nat → Nat) (n k : Nat) (hk : k < n)
    (h0 : ∀ j, j < n → j ≠ k → f j = 0) : ((List.range n).map f).sum = f k := by
  induction n with
  | zero => omega
  | succ m ih =>
    rw [List.range_succ, List.map_append, List.sum_append]
    rcases Nat.lt_or_ge k m with h | h
    · rw [ih h (fun j hj hjk => h0 j (by omega) hjk)]
      have : f m = 0 := h0 m (by omega) (by omega)
      simp [this]
    · have hk2 : k = m := by omega
      subst hk2
      have : ∀ x ∈ (List.range k).map f, x = 0 := by
        intro x hx
        rw [List.mem_map] at hx
        obtain ⟨j, hj, rfl⟩ := hx
        rw [List.mem_range] at hj
        exact h0 j (by omega) (by omega)
      rw [List.sum_eq_zero this]
      simp

theorem flatten_map_range_single {α : Type} (f : Nat → List α) (n k : Nat) (hk : k < n)
    (h0 : ∀ j, j < n → j ≠ k → f j = []) : ((List.range n).map f).flatten = f k := by
  induction n with
  | zero => omega
  | succ m ih =>
    rw [List.range_succ, List.map_append, List.flatten_append]
    rcases Nat.lt_or_ge k m with h | h
    · rw [ih h (fun j hj hjk => h0 j (by omega) hjk)]
      have : f m = [] := h0 m (by omega) (by omega)
      simp [this]
    · have hk2 : k = m := by omega
      subst hk2
      have : ∀ x ∈ (List.range k).map f, x = [] := by
        intro x hx
        rw [List.mem_map] at hx
        obtain ⟨j, hj, rfl⟩ := hx
        rw [List.mem_range] at hj
        exact h0 j (by omega) (by omega)
      rw [List.flatten_eq_nil_iff.mpr this]
      simp

theorem mem_sqi_sort_group {l : List sqi_colorstruc} {ch : Fin 3} {c : sqi_colorstruc}
    (h : c ∈ sqi_sort_group l ch) : c ∈ l := by
  unfold sqi_sort_group at h
  rw [List.mem_flatten] at h
  obtain ⟨bl, hbl, hc⟩ := h
  rw [List.mem_map] at hbl
  obtain ⟨a, _, rfl⟩ := hbl
  exact List.mem_of_mem_filter hc

theorem sqi_sort_group_count {l : List sqi_colorstruc} {ch : Fin 3} {c : sqi_colorstruc}
    (hc : sqi_comp c ch < 256) : (sqi_sort_group l ch).count c = l.count c := by
  unfold sqi_sort_group
  rw [List.count_flatten, List.map_map]
  have hz : ∀ j, j < 256 → j ≠ sqi_comp c ch →
      (l.filter (fun x => sqi_comp x ch == j)).count c = 0 := by
    intro j _ hj
    rw [List.count_eq_zero]
    intro hmem
    have h1 : sqi_comp c ch = j := by simpa using (List.mem_filter.mp hmem).2
    exact hj h1.symm
  have hs := sum_map_range_single
    (fun a => (l.filter (fun x => sqi_comp x ch == a)).count c) 256 (sqi_comp c ch) hc hz
  rw [Function.comp_def] at *
  rw [hs]
  have hpc : (fun x => sqi_comp x ch == sqi_comp c ch) c = true := by simp
  exact List.count_filter hpc

theorem sqi_sort_group_perm {l : List sqi_colorstruc} {ch : Fin 3}
    (h : ∀ c ∈ l, sqi_comp c ch < 256) : (sqi_sort_group l ch).Perm l := by
  rw [List.perm_iff_count]
  intro a
  rcases Nat.lt_or_ge (sqi_comp a ch) 256 with ha | ha
  · exact sqi_sort_group_count ha
  · have h1 : a ∉ sqi_sort_group l ch := fun hm => by
      have := h a (mem_sqi_sort_group hm)
      omega
    have h2 : a ∉ l := fun hm => by have := h a hm; omega
    rw [List.count_eq_zero.mpr h1, List.count_eq_zero.mpr h2]

theorem sqi_sort_group_pairwise {R : sqi_colorstruc → sqi_colorstruc → Prop}
    {l : List sqi_colorstruc} (ch : Fin 3) (h : l.Pairwise R) :
    (sqi_sort_group l ch).Pairwise
      (fun x y => sqi_comp x ch < sqi_comp y ch ∨ (sqi_comp x ch = sqi_comp y ch ∧ R x y)) := by
  unfold sqi_sort_group
  rw [List.pairwise_flatten]
  constructor
  · intro bl hbl
    rw [List.mem_map] at hbl
    obtain ⟨a, _, rfl⟩ := hbl
    refine List.Pairwise.imp_of_mem ?_ (h.filter _)
    intro x y hx hy hr
    have hxa : sqi_comp x ch = a := by simpa using (List.mem_filter.mp hx).2
    have hya : sqi_comp y ch = a := by simpa using (List.mem_filter.mp hy).2
    exact Or.inr ⟨hxa.trans hya.symm, hr⟩
  · rw [List.pairwise_map]
    refine List.Pairwise.imp_of_mem ?_ (List.pairwise_lt_range 256)
    intro a b _ _ hab x hx y hy
    have hxa : sqi_comp x ch = a := by simpa using (List.mem_filter.mp hx).2
    have hyb : sqi_comp y ch = b := by simpa using (List.mem_filter.mp hy).2
    exact Or.inl (by omega)

theorem sqi_sort_group_sorted (l : List sqi_colorstruc) (ch : Fin 3) :
    (sqi_sort_group l ch).Pairwise (fun x y => sqi_comp x ch ≤ sqi_comp y ch) := by
  have htriv : l.Pairwise (fun _ _ => True) :=
    List.pairwise_iff_forall_sublist.mpr (fun _ => trivial)
  have h := sqi_sort_group_pairwise (R := fun _ _ => True) ch htriv
  exact h.imp (fun hr => by rcases hr with h1 | h1 <;> omega)

theorem sqi_sort_group_stable {l : List sqi_colorstruc} {ch : Fin 3} (v : Nat)
    (hv : v < 256) :
    (sqi_sort_group l ch).filter (fun c => sqi_comp c ch == v) =
      l.filter (fun c => sqi_comp c ch == v) := by
  conv_lhs => rw [sqi_sort_group]
  rw [List.filter_flatten, List.map_map]
  have := flatten_map_range_single
    (fun a => (l.filter (fun x => sqi_comp x ch == a)).filter (fun c => sqi_comp c ch == v))
    256 v hv ?_
  · rw [Function.comp_def] at *
    rw [this]
    simp only [List.filter_filter]
    congr 1
    funext c
    by_cases h : sqi_comp c ch = v <;> simp [h]
  · intro j _ hj
    rw [List.filter_eq_nil_iff]
    intro c hc hcv
    have h1 : sqi_comp c ch = j := by simpa using (List.mem_filter.mp hc).2
    exact hj (by simp at hcv; omega)

/-! ## The lexicographic order established by sqi_dupenuke's three passes -/

theorem sqi_comp_zero (c : sqi_colorstruc) : sqi_comp c 0 = c.r := rfl

theorem sqi_comp_one (c : sqi_colorstruc) : sqi_comp c 1 = c.g := rfl

theorem sqi_comp_two (c : sqi_colorstruc) : sqi_comp c 2 = c.b := rfl

theorem lexKey_eq_iff {x y : sqi_colorstruc} (hx : ByteColor x) (hy : ByteColor y) :
    lexKey x = lexKey y ↔ (x.r = y.r ∧ x.g = y.g ∧ x.b = y.b) := by
  obtain ⟨h1, h2, h3⟩ := hx
  obtain ⟨h4, h5, h6⟩ := hy
  unfold lexKey
  constructor
  · intro h
    refine ⟨?_, ?_, ?_⟩ <;> omega
  · intro h
    rw [h.1, h.2.1, h.2.2]

theorem sqi_block_eq_iff {x y : sqi_colorstruc} (hx : ByteColor x) (hy : ByteColor y) :
    sqi_block x = sqi_block y ↔ (x.r = y.r ∧ x.g = y.g ∧ x.b = y.b) := by
  obtain ⟨h1, h2, h3⟩ := hx
  obtain ⟨h4, h5, h6⟩ := hy
  unfold sqi_block
  constructor
  · intro h
    refine ⟨?_, ?_, ?_⟩ <;> omega
  · intro h
    rw [h.1, h.2.1, h.2.2]

theorem lexKey_eq_iff_block {x y : sqi_colorstruc} (hx : ByteColor x) (hy : ByteColor y) :
    lexKey x = lexKey y ↔ sqi_block x = sqi_block y := by
  rw [lexKey_eq_iff hx hy, sqi_block_eq_iff hx hy]

theorem sqi_dupesort_mem {l : List sqi_colorstruc} {c : sqi_colorstruc}
    (h : c ∈ sqi_dupesort l) : c ∈ l :=
  mem_sqi_sort_group (mem_sqi_sort_group (mem_sqi_sort_group h))

theorem sqi_dupesort_perm {l : List sqi_colorstruc} (h : ∀ c ∈ l, ByteColor c) :
    (sqi_dupesort l).Perm l := by
  unfold sqi_dupesort
  have h0 : (sqi_sort_group l 0).Perm l :=
    sqi_sort_group_perm (fun c hc => (h c hc).comp_lt 0)
  have hm0 : ∀ c ∈ sqi_sort_group l 0, ByteColor c :=
    fun c hc => h c (mem_sqi_sort_group hc)
  have h1 : (sqi_sort_group (sqi_sort_group l 0) 1).Perm (sqi_sort_group l 0) :=
    sqi_sort_group_perm (fun c hc => (hm0 c hc).comp_lt 1)
  have hm1 : ∀ c ∈ sqi_sort_group (sqi_sort_group l 0) 1, ByteColor c :=
    fun c hc => hm0 c (mem_sqi_sort_group hc)
  have h2 : (sqi_sort_group (sqi_sort_group (sqi_sort_group l 0) 1) 2).Perm
      (sqi_sort_group (sqi_sort_group l 0) 1) :=
    sqi_sort_group_perm (fun c hc => (hm1 c hc).comp_lt 2)
  exact (h2.trans h1).trans h0

theorem sqi_dupesort_sorted {l : List sqi_colorstruc} (h : ∀ c ∈ l, ByteColor c) :
    (sqi_dupesort l).Pairwise (fun x y => lexKey x ≤ lexKey y) := by
  unfold sqi_dupesort
  have htriv : l.Pairwise (fun _ _ => True) :=
    List.pairwise_iff_forall_sublist.mpr (fun _ => trivial)
  have p0 := sqi_sort_group_pairwise (R := fun _ _ => True) 0 htriv
  have p1 := sqi_sort_group_pairwise 1 p0
  have p2 := sqi_sort_group_pairwise 2 p1
  refine List.Pairwise.imp_of_mem ?_ p2
  intro x y hx hy hr
  have hbx : ByteColor x := h x (sqi_dupesort_mem hx)
  have hby : ByteColor y := h y (sqi_dupesort_mem hy)
  obtain ⟨h1, h2, h3⟩ := hbx
  obtain ⟨h4, h5, h6⟩ := hby
  simp only [sqi_comp_zero, sqi_comp_one, sqi_comp_two] at hr
  unfold lexKey
  rcases hr with h7 | ⟨h7, h8 | ⟨h8, h9 | ⟨h9, _⟩⟩⟩ <;> omega

/-- In a list sorted by a numeric key, any two positions carrying the same
key have only that key in between them. -/
theorem pairwise_key_between {K : sqi_colorstruc → Nat} {l : List sqi_colorstruc}
    (h : l.Pairwise (fun x y => K x ≤ K y))
    {front mid back : List sqi_colorstruc} {x y : sqi_colorstruc}
    (he : l = front ++ x :: (mid ++ y :: back)) (hxy : K x = K y) :
    ∀ z ∈ mid, K z = K x := by
  subst he
  intro z hz
  have h1 := (List.pairwise_append.mp h).2.1
  rw [List.pairwise_cons] at h1
  have hxz : K x ≤ K z := h1.1 z (by simp [hz])
  have h2 := (List.pairwise_append.mp h1.2).2.2
  have hzy : K z ≤ K y := h2 z hz y (List.mem_cons_self _ _)
  omega

/-! ## Characterization of sqi_examine_group -/

theorem exfold_rmin (rest : List sqi_colorstruc) : ∀ st : sqi_exstate,
    (rest.foldl sqi_exstep st).rmin = rest.foldl (fun a c => min a c.r) st.rmin := by
  induction rest with
  | nil => intro st; rfl
  | cons c t ih => intro st; simp only [List.foldl_cons]; rw [ih]; rfl

theorem exfold_rmax (rest : List sqi_colorstruc) : ∀ st : sqi_exstate,
    (rest.foldl sqi_exstep st).rmax = rest.foldl (fun a c => max a c.r) st.rmax := by
  induction rest with
  | nil => intro st; rfl
  | cons c t ih => intro st; simp only [List.foldl_cons]; rw [ih]; rfl

theorem exfold_rs (rest : List sqi_colorstruc) : ∀ st : sqi_exstate,
    (rest.foldl sqi_exstep st).rs = rest.foldl (fun a c => a + c.r) st.rs := by
  induction rest with
  | nil => intro st; rfl
  | cons c t ih => intro st; simp only [List.foldl_cons]; rw [ih]; rfl

theorem exfold_gmin (rest : List sqi_colorstruc) : ∀ st : sqi_exstate,
    (rest.foldl sqi_exstep st).gmin = rest.foldl (fun a c => min a c.g) st.gmin := by
  induction rest with
  | nil => intro st; rfl
  | cons c t ih => intro st; simp only [List.foldl_cons]; rw [ih]; rfl

theorem exfold_gmax (rest : List sqi_colorstruc) : ∀ st : sqi_exstate,
    (rest.foldl sqi_exstep st).gmax = rest.foldl (fun a c => max a c.g) st.gmax := by
  induction rest with
  | nil => intro st; rfl
  | cons c t ih => intro st; simp only [List.foldl_cons]; rw [ih]; rfl

theorem exfold_gs (rest : List sqi_colorstruc) : ∀ st : sqi_exstate,
    (rest.foldl sqi_exstep st).gs = rest.foldl (fun a c => a + c.g) st.gs := by
  induction rest with
  | nil => intro st; rfl
  | cons c t ih => intro st; simp only [List.foldl_cons]; rw [ih]; rfl

theorem exfold_bmin (rest : List sqi_colorstruc) : ∀ st : sqi_exstate,
    (rest.foldl sqi_exstep st).bmin = rest.foldl (fun a c => min a c.b) st.bmin := by
  induction rest with
  | nil => intro st; rfl
  | cons c t ih => intro st; simp only [List.foldl_cons]; rw [ih]; rfl

theorem exfold_bmax (rest : List sqi_colorstruc) : ∀ st : sqi_exstate,
    (rest.foldl sqi_exstep st).bmax = rest.foldl (fun a c => max a c.b) st.bmax := by
  induction rest with
  | nil => intro st; rfl
  | cons c t ih => intro st; simp only [List.foldl_cons]; rw [ih]; rfl

theorem exfold_bs (rest : List sqi_colorstruc) : ∀ st : sqi_exstate,
    (rest.foldl sqi_exstep st).bs = rest.foldl (fun a c => a + c.b) st.bs := by
  induction rest with
  | nil => intro st; rfl
  | cons c t ih => intro st; simp only [List.foldl_cons]; rw [ih]; rfl

theorem chanMin_cons (c : sqi_colorstruc) (rest : List sqi_colorstruc) (ch : Fin 3) :
    chanMin (c :: rest) ch = rest.foldl (fun a x => min a (sqi_comp x ch)) (sqi_comp c ch) := by
  unfold chanMin chanVals
  simp only [List.map_cons]
  rw [List.foldl_map]

theorem chanMax_cons (c : sqi_colorstruc) (rest : List sqi_colorstruc) (ch : Fin 3) :
    chanMax (c :: rest) ch = rest.foldl (fun a x => max a (sqi_comp x ch)) (sqi_comp c ch) := by
  unfold chanMax chanVals
  simp only [List.map_cons, List.foldl_cons]
  rw [List.foldl_map]
  congr 1
  exact max_eq_right (Nat.zero_le _)

theorem foldl_add_eq {α : Type} (f : α → Nat) (l : List α) :
    ∀ b : Nat, l.foldl (fun a x => a + f x) b = b + (l.map f).sum := by
  induction l with
  | nil => intro b; simp
  | cons c t ih =>
    intro b
    simp only [List.foldl_cons, List.map_cons, List.sum_cons]
    rw [ih]
    omega

theorem chanSum_cons (c : sqi_colorstruc) (rest : List sqi_colorstruc) (ch : Fin 3) :
    chanSum (c :: rest) ch = rest.foldl (fun a x => a + (sqi_comp x ch)) (sqi_comp c ch) := by
  unfold chanSum chanVals
  simp only [List.map_cons, List.sum_cons]
  rw [foldl_add_eq]

theorem sqi_exselect_cases (st : sqi_exstate) :
    (¬ st.gmax - st.gmin > st.rmax - st.rmin ∧ ¬ st.bmax - st.bmin > st.rmax - st.rmin ∧
        sqi_exselect st = (0, st.rmax - st.rmin, st.rs)) ∨
      (st.gmax - st.gmin > st.rmax - st.rmin ∧ ¬ st.bmax - st.bmin > st.gmax - st.gmin ∧
        sqi_exselect st = (1, st.gmax - st.gmin, st.gs)) ∨
      (¬ st.gmax - st.gmin > st.rmax - st.rmin ∧ st.bmax - st.bmin > st.rmax - st.rmin ∧
        sqi_exselect st = (2, st.bmax - st.bmin, st.bs)) ∨
      (st.gmax - st.gmin > st.rmax - st.rmin ∧ st.bmax - st.bmin > st.gmax - st.gmin ∧
        sqi_exselect st = (2, st.bmax - st.bmin, st.bs)) := by
  unfold sqi_exselect
  by_cases h1 : st.gmax - st.gmin > st.rmax - st.rmin
  · by_cases h2 : st.bmax - st.bmin > st.gmax - st.gmin
    · refine Or.inr (Or.inr (Or.inr ⟨h1, h2, ?_⟩))
      simp [h1, h2]
    · refine Or.inr (Or.inl ⟨h1, h2, ?_⟩)
      simp [h1, h2]
  · by_cases h2 : st.bmax - st.bmin > st.rmax - st.rmin
    · refine Or.inr (Or.inr (Or.inl ⟨h1, h2, ?_⟩))
      simp [h1, h2]
    · refine Or.inl ⟨h1, h2, ?_⟩
      simp [h1, h2]

theorem exState_rstats (c : sqi_colorstruc) (rest : List sqi_colorstruc) :
    (exState c rest).rmin = chanMin (c :: rest) 0 ∧
      (exState c rest).rmax = chanMax (c :: rest) 0 ∧
      (exState c rest).rs = chanSum (c :: rest) 0 := by
  unfold exState
  refine ⟨?_, ?_, ?_⟩
  · rw [exfold_rmin, chanMin_cons]; rfl
  · rw [exfold_rmax, chanMax_cons]; rfl
  · rw [exfold_rs, chanSum_cons]; rfl

theorem exState_gstats (c : sqi_colorstruc) (rest : List sqi_colorstruc) :
    (exState c rest).gmin = chanMin (c :: rest) 1 ∧
      (exState c rest).gmax = chanMax (c :: rest) 1 ∧
      (exState c rest).gs = chanSum (c :: rest) 1 := by
  unfold exState
  refine ⟨?_, ?_, ?_⟩
  · rw [exfold_gmin, chanMin_cons]; rfl
  · rw [exfold_gmax, chanMax_cons]; rfl
  · rw [exfold_gs, chanSum_cons]; rfl

theorem exState_bstats (c : sqi_colorstruc) (rest : List sqi_colorstruc) :
    (exState c rest).bmin = chanMin (c :: rest) 2 ∧
      (exState c rest).bmax = chanMax (c :: rest) 2 ∧
      (exState c rest).bs = chanSum (c :: rest) 2 := by
  unfold exState
  refine ⟨?_, ?_, ?_⟩
  · rw [exfold_bmin, chanMin_cons]; rfl
  · rw [exfold_bmax, chanMax_cons]; rfl
  · rw [exfold_bs, chanSum_cons]; rfl

theorem sqi_examine_group_cons (c : sqi_colorstruc) (rest : List sqi_colorstruc) :
    sqi_examine_group (c :: rest) = sqi_exselect (exState c rest) := rfl

theorem fin3_cases {P : Fin 3 → Prop} (h0 : P 0) (h1 : P 1) (h2 : P 2) :
    ∀ ch : Fin 3, P ch := by
  intro ch
  have hlt := ch.isLt
  have hv : ch.val = 0 ∨ ch.val = 1 ∨ ch.val = 2 := by omega
  rcases hv with h | h | h
  · rwa [show ch = 0 from Fin.ext h]
  · rwa [show ch = 1 from Fin.ext h]
  · rwa [show ch = 2 from Fin.ext h]

/-- Full characterization of sqi_examine_group on a non-empty group: the
returned size is the selected channel's spread, the returned sum is the
selected channel's sum, no channel has a larger spread, and every channel
before the selected one has a strictly smaller spread. -/
theorem sqi_examine_group_spec (c : sqi_colorstruc) (rest : List sqi_colorstruc) :
    (sqi_examine_group (c :: rest)).2.1 =
        chanSpread (c :: rest) (sqi_examine_group (c :: rest)).1 ∧
      (sqi_examine_group (c :: rest)).2.2 =
        chanSum (c :: rest) (sqi_examine_group (c :: rest)).1 ∧
      (∀ ch : Fin 3, chanSpread (c :: rest) ch ≤ (sqi_examine_group (c :: rest)).2.1) ∧
      (∀ ch : Fin 3, ch < (sqi_examine_group (c :: rest)).1 →
        chanSpread (c :: rest) ch < (sqi_examine_group (c :: rest)).2.1) := by
  obtain ⟨hr1, hr2, hr3⟩ := exState_rstats c rest
  obtain ⟨hg1, hg2, hg3⟩ := exState_gstats c rest
  obtain ⟨hb1, hb2, hb3⟩ := exState_bstats c rest
  rw [sqi_examine_group_cons]
  have hsprR : chanSpread (c :: rest) 0 = (exState c rest).rmax - (exState c rest).rmin := by
    rw [chanSpread, hr1, hr2]
  have hsprG : chanSpread (c :: rest) 1 = (exState c rest).gmax - (exState c rest).gmin := by
    rw [chanSpread, hg1, hg2]
  have hsprB : chanSpread (c :: rest) 2 = (exState c rest).bmax - (exState c rest).bmin := by
    rw [chanSpread, hb1, hb2]
  rcases sqi_exselect_cases (exState c rest) with
    ⟨h1, h2, he⟩ | ⟨h1, h2, he⟩ | ⟨h1, h2, he⟩ | ⟨h1, h2, he⟩ <;> rw [he]
  · refine ⟨hsprR.symm, hr3, ?_, ?_⟩
    · show ∀ ch : Fin 3,
        chanSpread (c :: rest) ch ≤ (exState c rest).rmax - (exState c rest).rmin
      refine fin3_cases ?_ ?_ ?_
      · rw [hsprR]
      · rw [hsprG]; omega
      · rw [hsprB]; omega
    · show ∀ ch : Fin 3, ch < (0 : Fin 3) →
        chanSpread (c :: rest) ch < (exState c rest).rmax - (exState c rest).rmin
      intro ch hch
      rw [Fin.lt_def] at hch
      exact absurd hch (by simp)
  · refine ⟨hsprG.symm, hg3, ?_, ?_⟩
    · show ∀ ch : Fin 3,
        chanSpread (c :: rest) ch ≤ (exState c rest).gmax - (exState c rest).gmin
      refine fin3_cases ?_ ?_ ?_
      · rw [hsprR]; omega
      · rw [hsprG]
      · rw [hsprB]; omega
    · show ∀ ch : Fin 3, ch < (1 : Fin 3) →
        chanSpread (c :: rest) ch < (exState c rest).gmax - (exState c rest).gmin
      intro ch hch
      rw [Fin.lt_def] at hch
      have hch0 : ch = 0 := Fin.ext (by simpa using hch)
      rw [hch0, hsprR]
      omega
  · refine ⟨hsprB.symm, hb3, ?_, ?_⟩
    · show ∀ ch : Fin 3,
        chanSpread (c :: rest) ch ≤ (exState c rest).bmax - (exState c rest).bmin
      refine fin3_cases ?_ ?_ ?_
      · rw [hsprR]; omega
      · rw [hsprG]; omega
      · rw [hsprB]
    · show ∀ ch : Fin 3, ch < (2 : Fin 3) →
        chanSpread (c :: rest) ch < (exState c rest).bmax - (exState c rest).bmin
      intro ch hch
      rw [Fin.lt_def] at hch
      have hch2 : ch.val = 0 ∨ ch.val = 1 := by
        have := ch.isLt
        simp at hch
        omega
      rcases hch2 with h | h
      · rw [show ch = 0 from Fin.ext h, hsprR]; omega
      · rw [show ch = 1 from Fin.ext h, hsprG]; omega
  · refine ⟨hsprB.symm, hb3, ?_, ?_⟩
    · show ∀ ch : Fin 3,
        chanSpread (c :: rest) ch ≤ (exState c rest).bmax - (exState c rest).bmin
      refine fin3_cases ?_ ?_ ?_
      · rw [hsprR]; omega
      · rw [hsprG]; omega
      · rw [hsprB]
    · show ∀ ch : Fin 3, ch < (2 : Fin 3) →
        chanSpread (c :: rest) ch < (exState c rest).bmax - (exState c rest).bmin
      intro ch hch
      rw [Fin.lt_def] at hch
      have hch2 : ch.val = 0 ∨ ch.val = 1 := by
        have := ch.isLt
        simp at hch
        omega
      rcases hch2 with h | h
      · rw [show ch = 0 from Fin.ext h, hsprR]; omega
      · rw [show ch = 1 from Fin.ext h, hsprG]; omega

/-! ## Characterization of sqi_cut_group -/

theorem chanSum_nil (component : Fin 3) : chanSum [] component = 0 := rfl

theorem chanSum_cons_eq (c : sqi_colorstruc) (rest : List sqi_colorstruc) (component : Fin 3) :
    chanSum (c :: rest) component = sqi_comp c component + chanSum rest component := by
  unfold chanSum chanVals
  simp

theorem sqi_cut_loop_spec (component : Fin 3) (median : Nat) :
    ∀ (l : List sqi_colorstruc) (count : Nat),
      (count + chanSum l component ≤ median → sqi_cut_loop component median count l = none) ∧
      (count ≤ median → median < count + chanSum l component →
        sqi_cut_loop component median count l =
          some (l.take (crossIdx component median count l),
                l.drop (crossIdx component median count l)) ∧
        crossIdx component median count l < l.length) := by
  intro l
  induction l with
  | nil =>
    intro count
    refine ⟨fun _ => rfl, fun hc hlt => ?_⟩
    rw [chanSum_nil] at hlt
    omega
  | cons c rest ih =>
    intro count
    rw [chanSum_cons_eq]
    constructor
    · intro h
      have h2 : count + sqi_comp c component ≤ median := by omega
      have h3 := (ih (count + sqi_comp c component)).1 (by omega)
      simp only [sqi_cut_loop, if_pos h2, h3]
    · intro hc hlt
      by_cases h2 : count + sqi_comp c component ≤ median
      · have h3 := (ih (count + sqi_comp c component)).2 h2 (by omega)
        simp only [sqi_cut_loop, if_pos h2, h3.1]
        rw [crossIdx, if_pos h2]
        refine ⟨rfl, ?_⟩
        simp only [List.length_cons]
        omega
      · simp only [sqi_cut_loop, if_neg h2]
        rw [crossIdx, if_neg h2]
        exact ⟨rfl, by simp⟩

theorem sqi_cut_group_spec (gl : List sqi_colorstruc) (component : Fin 3)
    (h1 : 1 ≤ chanSum gl component) :
    (gl.length = 1 → sqi_cut_group gl component (chanSum gl component) = none) ∧
    (2 ≤ gl.length →
      sqi_cut_group gl component (chanSum gl component) =
        some (gl.take (max (crossIdx component (chanSum gl component / 2) 0 gl) 1),
              gl.drop (max (crossIdx component (chanSum gl component / 2) 0 gl) 1)) ∧
      max (crossIdx component (chanSum gl component / 2) 0 gl) 1 < gl.length) := by
  have hmed : chanSum gl component / 2 < chanSum gl component := by omega
  have hloop := (sqi_cut_loop_spec component (chanSum gl component / 2) gl 0).2
    (Nat.zero_le _) (by omega)
  cases gl with
  | nil => rw [chanSum_nil] at h1; omega
  | cons c rest =>
    constructor
    · intro hlen
      have hrest : rest = [] := by
        simp only [List.length_cons] at hlen
        exact List.length_eq_zero.mp (by omega)
      subst hrest
      have hk : crossIdx component (chanSum [c] component / 2) 0 [c] = 0 := by
        have := hloop.2
        simp at this
        omega
      unfold sqi_cut_group
      rw [hloop.1, hk]
      rfl
    · intro hlen
      rcases hk : crossIdx component (chanSum (c :: rest) component / 2) 0 (c :: rest) with _ | k
      · rw [hk] at hloop
        unfold sqi_cut_group
        rw [hloop.1]
        simp only [List.take_zero, List.drop_zero]
        have hrest : rest ≠ [] := by
          intro h
          subst h
          simp at hlen
        cases rest with
        | nil => exact absurd rfl hrest
        | cons d t =>
          have hmax : max 0 1 = 1 := rfl
          rw [hmax]
          exact ⟨rfl, by simp⟩
      · rw [hk] at hloop
        have hm : max (k + 1) 1 = k + 1 := by omega
        unfold sqi_cut_group
        rw [hloop.1, hm]
        exact ⟨rfl, hloop.2⟩

/-- The successful cut produces two non-empty halves that concatenate back
to the input group. -/
theorem sqi_cut_group_parts {gl : List sqi_colorstruc} {component : Fin 3}
    (h1 : 1 ≤ chanSum gl component) (h2 : 2 ≤ gl.length) :
    ∃ front back, sqi_cut_group gl component (chanSum gl component) = some (front, back) ∧
      front ++ back = gl ∧ front ≠ [] ∧ back ≠ [] := by
  obtain ⟨heq, hlt⟩ := (sqi_cut_group_spec gl component h1).2 h2
  set m := max (crossIdx component (chanSum gl component / 2) 0 gl) 1 with hm
  refine ⟨gl.take m, gl.drop m, heq, List.take_append_drop m gl, ?_, ?_⟩
  · have h3 : 1 ≤ m := le_max_right _ 1
    intro h
    have := List.length_take m gl
    rw [h] at this
    simp at this
    omega
  · intro h
    have := List.length_drop m gl
    rw [h] at this
    simp at this
    omega

/-! ## Characterization of sqi_dupescan and sqi_dupenuke -/

theorem sqi_dupescan_spec :
    ∀ (l : List sqi_colorstruc) (c0 : sqi_colorstruc) (act : List sqi_colorstruc)
      (zer : List (Nat × Nat)),
      (∀ x ∈ l, ByteColor x) → ByteColor c0 →
      l.Pairwise (fun x y => lexKey x ≤ lexKey y) →
      (∀ x ∈ l, lexKey c0 ≤ lexKey x) →
      sqi_dupescan c0.coloridx (sqi_block c0) l = (act, zer) →
      (∀ a ∈ act, a ∈ l) ∧
        (c0 :: act).Pairwise (fun x y => lexKey x < lexKey y) ∧
        (∀ q ∈ zer, ∃ cz ∈ l, cz.coloridx = q.1 ∧
          ∃ ca ∈ c0 :: act, ca.coloridx = q.2 ∧ sqi_block ca = sqi_block cz) ∧
        ((c0 :: l).map sqi_colorstruc.coloridx).Perm
          ((c0 :: act).map sqi_colorstruc.coloridx ++ zer.map Prod.fst) ∧
        (∀ x ∈ l, sqi_block x = sqi_block c0 ∨ ∃ a ∈ act, sqi_block a = sqi_block x) := by
  intro l
  induction l with
  | nil =>
    intro c0 act zer _ _ _ _ heq
    rw [sqi_dupescan] at heq
    cases heq
    refine ⟨by simp, ?_, by simp, by simp, by simp⟩
    simp
  | cons c rest ih =>
    intro c0 act zer hB hB0 hsort hlb heq
    have hBc : ByteColor c := hB c (List.mem_cons_self _ _)
    have hBrest : ∀ x ∈ rest, ByteColor x := fun x hx => hB x (List.mem_cons_of_mem _ hx)
    have hsortrest : rest.Pairwise (fun x y => lexKey x ≤ lexKey y) :=
      (List.pairwise_cons.mp hsort).2
    have hcb : ∀ x ∈ rest, lexKey c ≤ lexKey x := (List.pairwise_cons.mp hsort).1
    by_cases hdup : sqi_block c = sqi_block c0
    · rw [sqi_dupescan, if_pos hdup] at heq
      rcases hp : sqi_dupescan c0.coloridx (sqi_block c0) rest with ⟨act1, zer1⟩
      rw [hp] at heq
      cases heq
      obtain ⟨i1, i2, i3, i4, i5⟩ := ih c0 act1 zer1 hBrest hB0 hsortrest
        (fun x hx => hlb x (List.mem_cons_of_mem _ hx)) hp
      refine ⟨fun a ha => List.mem_cons_of_mem _ (i1 a ha), i2, ?_, ?_, ?_⟩
      · intro q hq
        rcases List.mem_cons.mp hq with h | h
        · subst h
          exact ⟨c, List.mem_cons_self _ _, rfl, c0, List.mem_cons_self _ _, rfl, hdup.symm⟩
        · obtain ⟨cz, hcz, hcz2, ca, hca, hca2, hca3⟩ := i3 q h
          exact ⟨cz, List.mem_cons_of_mem _ hcz, hcz2, ca, hca, hca2, hca3⟩
      · simp only [List.map_cons]
        have step1 : (c0.coloridx :: c.coloridx :: rest.map sqi_colorstruc.coloridx).Perm
            (c.coloridx :: c0.coloridx :: rest.map sqi_colorstruc.coloridx) :=
          List.Perm.swap _ _ _
        have step2 : (c.coloridx :: c0.coloridx :: rest.map sqi_colorstruc.coloridx).Perm
            (c.coloridx :: (c0.coloridx :: act1.map sqi_colorstruc.coloridx ++ zer1.map Prod.fst)) := by
          refine List.Perm.cons _ ?_
          simpa using i4
        have step3 : (c.coloridx :: (c0.coloridx :: act1.map sqi_colorstruc.coloridx ++ zer1.map Prod.fst)).Perm
            ((c0.coloridx :: act1.map sqi_colorstruc.coloridx) ++ c.coloridx :: zer1.map Prod.fst) :=
          List.perm_middle.symm
        exact (step1.trans step2).trans step3
      · intro x hx
        rcases List.mem_cons.mp hx with h | h
        · subst h; exact Or.inl hdup
        · exact i5 x h
    · rw [sqi_dupescan, if_neg hdup] at heq
      rcases hp : sqi_dupescan c.coloridx (sqi_block c) rest with ⟨act1, zer1⟩
      rw [hp] at heq
      cases heq
      obtain ⟨i1, i2, i3, i4, i5⟩ := ih c act1 zer1 hBrest hBc hsortrest hcb hp
      have hlt : lexKey c0 < lexKey c := by
        have hle := hlb c (List.mem_cons_self _ _)
        have hne : lexKey c0 ≠ lexKey c := by
          intro hk
          exact hdup (((lexKey_eq_iff_block hBc hB0).mp hk.symm))
        omega
      refine ⟨?_, ?_, ?_, ?_, ?_⟩
      · intro a ha
        rcases List.mem_cons.mp ha with h | h
        · subst h; exact List.mem_cons_self _ _
        · exact List.mem_cons_of_mem _ (i1 a h)
      · rw [List.pairwise_cons]
        refine ⟨?_, i2⟩
        intro a ha
        rcases List.mem_cons.mp ha with h | h
        · subst h; exact hlt
        · have := (List.pairwise_cons.mp i2).1 a h
          omega
      · intro q hq
        obtain ⟨cz, hcz, hcz2, ca, hca, hca2, hca3⟩ := i3 q hq
        exact ⟨cz, List.mem_cons_of_mem _ hcz, hcz2, ca, List.mem_cons_of_mem _ hca, hca2, hca3⟩
      · simp only [List.map_cons] at *
        refine List.Perm.cons _ ?_
        simpa using i4
      · intro x hx
        rcases List.mem_cons.mp hx with h | h
        · exact Or.inr ⟨c, List.mem_cons_self _ _, by rw [h]⟩
        · rcases i5 x h with h2 | ⟨a, ha, ha2⟩
          · exact Or.inr ⟨c, List.mem_cons_self _ _, by rw [h2]⟩
          · exact Or.inr ⟨a, List.mem_cons_of_mem _ ha, ha2⟩

/-- Everything sq_reduce relies on about sqi_dupenuke: active colors come
from the working set, their lexicographic keys strictly increase (so their
packed blocks are pairwise distinct), every zero-list entry records the
original index of a removed color together with a back-reference to an
active survivor of the same packed color, the original indices are
partitioned between actives and zeros, and every color of the working set
has an active survivor with its packed color. -/
theorem sqi_dupenuke_spec (l : List sqi_colorstruc) (hB : ∀ x ∈ l, ByteColor x)
    (hne : l ≠ []) {act : List sqi_colorstruc} {zer : List (Nat × Nat)}
    (heq : sqi_dupenuke l = (act, zer)) :
    (∀ a ∈ act, a ∈ l) ∧
      act.Pairwise (fun x y => lexKey x < lexKey y) ∧
      (∀ q ∈ zer, ∃ cz ∈ l, cz.coloridx = q.1 ∧
        ∃ ca ∈ act, ca.coloridx = q.2 ∧ sqi_block ca = sqi_block cz) ∧
      (l.map sqi_colorstruc.coloridx).Perm
        (act.map sqi_colorstruc.coloridx ++ zer.map Prod.fst) ∧
      (∀ x ∈ l, ∃ a ∈ act, sqi_block a = sqi_block x) ∧
      act ≠ [] := by
  have hperm : (sqi_dupesort l).Perm l := sqi_dupesort_perm hB
  have hsorted := sqi_dupesort_sorted hB
  rcases hs : sqi_dupesort l with _ | ⟨c, rest⟩
  · rw [hs] at hperm
    exact absurd hperm.symm.eq_nil hne
  · rw [hs] at hperm hsorted
    have heq2 : (c :: (sqi_dupescan c.coloridx (sqi_block c) rest).1,
        (sqi_dupescan c.coloridx (sqi_block c) rest).2) = (act, zer) := by
      rw [← heq, sqi_dupenuke, hs]
    rcases hp : sqi_dupescan c.coloridx (sqi_block c) rest with ⟨act1, zer1⟩
    rw [hp] at heq2
    cases heq2
    have hmem : ∀ x ∈ c :: rest, x ∈ l := fun x hx => hperm.mem_iff.mp hx
    have hBc : ByteColor c := hB c (hmem c (List.mem_cons_self _ _))
    have hBrest : ∀ x ∈ rest, ByteColor x :=
      fun x hx => hB x (hmem x (List.mem_cons_of_mem _ hx))
    obtain ⟨i1, i2, i3, i4, i5⟩ := sqi_dupescan_spec rest c act1 zer1 hBrest hBc
      (List.pairwise_cons.mp hsorted).2 (List.pairwise_cons.mp hsorted).1 hp
    refine ⟨?_, i2, ?_, ?_, ?_, by simp⟩
    · intro a ha
      rcases List.mem_cons.mp ha with h | h
      · exact h ▸ hmem c (List.mem_cons_self _ _)
      · exact hmem a (List.mem_cons_of_mem _ (i1 a h))
    · intro q hq
      obtain ⟨cz, hcz, hcz2, ca, hca, hca2, hca3⟩ := i3 q hq
      exact ⟨cz, hmem cz (List.mem_cons_of_mem _ hcz), hcz2, ca, hca, hca2, hca3⟩
    · have hlperm : (l.map sqi_colorstruc.coloridx).Perm
          ((c :: rest).map sqi_colorstruc.coloridx) := (hperm.symm).map _
      exact hlperm.trans i4
    · intro x hx
      have hx2 : x ∈ c :: rest := hperm.mem_iff.mpr hx
      rcases List.mem_cons.mp hx2 with h | h
      · exact ⟨c, List.mem_cons_self _ _, by rw [h]⟩
      · rcases i5 x h with h2 | ⟨a, ha, ha2⟩
        · exact ⟨c, List.mem_cons_self _ _, h2.symm⟩
        · exact ⟨a, List.mem_cons_of_mem _ ha, ha2⟩

/-- Strictly increasing lexicographic keys give pairwise-distinct packed
blocks. -/
theorem blocks_nodup {act : List sqi_colorstruc} (hB : ∀ a ∈ act, ByteColor a)
    (h : act.Pairwise (fun x y => lexKey x < lexKey y)) :
    (act.map sqi_block).Nodup := by
  have h2 : act.Pairwise (fun x y => sqi_block x ≠ sqi_block y) := by
    refine List.Pairwise.imp_of_mem ?_ h
    intro a b ha hb hlt heq
    have := (lexKey_eq_iff_block (hB a ha) (hB b hb)).mpr heq
    omega
  exact List.pairwise_map.mpr h2

/-- Two active colors sharing a packed block are the same color. -/
theorem block_unique {act : List sqi_colorstruc} (h : (act.map sqi_block).Nodup)
    {a b : sqi_colorstruc} (ha : a ∈ act) (hb : b ∈ act)
    (heq : sqi_block a = sqi_block b) : a = b :=
  List.inj_on_of_nodup_map h ha hb heq

/-! ## The split loop: selection, pigeonhole and the group invariant -/

theorem select_fold_spec (gs : List SplitGroup) :
    ∀ (n : Nat) (i0 : Nat),
      (((List.range n).foldl
          (fun i k => if (gs.getD k emptyGroup).size > (gs.getD i emptyGroup).size then k else i)
          i0) = i0 ∨
        ((List.range n).foldl
          (fun i k => if (gs.getD k emptyGroup).size > (gs.getD i emptyGroup).size then k else i)
          i0) < n) ∧
      (gs.getD i0 emptyGroup).size ≤
        (gs.getD ((List.range n).foldl
          (fun i k => if (gs.getD k emptyGroup).size > (gs.getD i emptyGroup).size then k else i)
          i0) emptyGroup).size ∧
      (∀ j, j < n →
        (gs.getD j emptyGroup).size ≤
          (gs.getD ((List.range n).foldl
            (fun i k => if (gs.getD k emptyGroup).size > (gs.getD i emptyGroup).size then k else i)
            i0) emptyGroup).size) := by
  intro n
  induction n with
  | zero =>
    intro i0
    exact ⟨Or.inl rfl, le_refl _, fun j hj => by omega⟩
  | succ m ih =>
    intro i0
    rw [List.range_succ, List.foldl_append, List.foldl_cons, List.foldl_nil]
    obtain ⟨hmem, hi0, hall⟩ := ih i0
    by_cases hgt : (gs.getD m emptyGroup).size >
        (gs.getD ((List.range m).foldl
          (fun i k => if (gs.getD k emptyGroup).size > (gs.getD i emptyGroup).size then k else i)
          i0) emptyGroup).size
    · rw [if_pos hgt]
      refine ⟨Or.inr (by omega), by omega, ?_⟩
      intro j hj
      rcases Nat.lt_or_ge j m with h | h
      · have := hall j h
        omega
      · have hjm : j = m := by omega
        rw [hjm]
    · rw [if_neg hgt]
      refine ⟨?_, hi0, ?_⟩
      · rcases hmem with h | h
        · exact Or.inl h
        · exact Or.inr (by omega)
      · intro j hj
        rcases Nat.lt_or_ge j m with h | h
        · exact hall j h
        · have hjm : j = m := by omega
          rw [hjm]
          omega

theorem selectLargest_spec (gs : List SplitGroup) (hne : gs ≠ []) :
    selectLargest gs < gs.length ∧
      ∀ j, j < gs.length →
        (gs.getD j emptyGroup).size ≤ (gs.getD (selectLargest gs) emptyGroup).size := by
  obtain ⟨hmem, _, hall⟩ := select_fold_spec gs gs.length 0
  have hlen : 0 < gs.length := List.length_pos.mpr hne
  refine ⟨?_, hall⟩
  rcases hmem with h | h
  · rw [selectLargest, h]
    exact hlen
  · exact h

theorem exists_big_group (gs : List SplitGroup)
    (h : gs.length < ((gs.map (fun g => g.cols)).flatten).length) :
    ∃ g ∈ gs, 2 ≤ g.cols.length := by
  by_contra h2
  push_neg at h2
  have hb : ∀ x ∈ gs.map (fun g => g.cols.length), x ≤ 1 := by
    intro x hx
    rw [List.mem_map] at hx
    obtain ⟨g, hg, rfl⟩ := hx
    have := h2 g hg
    omega
  have hs := List.sum_le_card_nsmul (gs.map (fun g => g.cols.length)) 1 hb
  rw [List.length_flatten] at h
  simp only [List.map_map, Function.comp_def] at h
  simp only [List.length_map, smul_eq_mul, mul_one] at hs
  omega

theorem mkGroup_stats {l : List sqi_colorstruc} (h : l ≠ []) (s : Option (Fin 3)) :
    (mkGroup l s).cols = l ∧ (mkGroup l s).sortedBy = s ∧
      (mkGroup l s).size = chanSpread l (mkGroup l s).comp ∧
      (mkGroup l s).sum = chanSum l (mkGroup l s).comp ∧
      (∀ ch : Fin 3, chanSpread l ch ≤ (mkGroup l s).size) := by
  cases l with
  | nil => exact absurd rfl h
  | cons c rest =>
    obtain ⟨e1, e2, e3, _⟩ := sqi_examine_group_spec c rest
    exact ⟨rfl, rfl, e1, e2, e3⟩

theorem chanSpread_one_le_two_mem {l : List sqi_colorstruc} {ch : Fin 3}
    (h : 1 ≤ chanSpread l ch) : 2 ≤ l.length := by
  rcases l with _ | ⟨c, rest⟩
  · rw [chanSpread, chanMax, chanMin] at h
    simp [chanVals] at h
  · rcases rest with _ | ⟨d, t⟩
    · rw [chanSpread, chanMax, chanMin] at h
      simp [chanVals] at h
    · simp only [List.length_cons]
      omega

theorem chanSpread_of_comp_ne {l : List sqi_colorstruc} {x y : sqi_colorstruc} {ch : Fin 3}
    (hx : x ∈ l) (hy : y ∈ l) (hne : sqi_comp x ch ≠ sqi_comp y ch) :
    1 ≤ chanSpread l ch := by
  have h1 := le_chanMax hx ch
  have h2 := le_chanMax hy ch
  have h3 := chanMin_le hx ch
  have h4 := chanMin_le hy ch
  rw [chanSpread]
  omega

theorem block_ne_of_comp_all_eq {x y : sqi_colorstruc}
    (h : ∀ ch : Fin 3, sqi_comp x ch = sqi_comp y ch) : sqi_block x = sqi_block y := by
  have h0 := h 0
  have h1 := h 1
  have h2 := h 2
  rw [sqi_comp_zero, sqi_comp_zero] at h0
  rw [sqi_comp_one, sqi_comp_one] at h1
  rw [sqi_comp_two, sqi_comp_two] at h2
  rw [sqi_block, sqi_block, h0, h1, h2]

theorem good_mem_bytes {A : List sqi_colorstruc} (hA : ∀ a ∈ A, ByteColor a)
    {gs : List SplitGroup} (hG : GoodGroups A gs) {g : SplitGroup} (hg : g ∈ gs) :
    ∀ x ∈ g.cols, ByteColor x :=
  fun x hx =>
    hA x (hG.2.1.mem_iff.mp (List.mem_flatten.mpr ⟨g.cols, List.mem_map_of_mem _ hg, hx⟩))

theorem good_group_nodup_blocks {A : List sqi_colorstruc}
    (hnd : (A.map sqi_block).Nodup) {gs : List SplitGroup} (hG : GoodGroups A gs)
    {g : SplitGroup} (hg : g ∈ gs) : (g.cols.map sqi_block).Nodup := by
  have hsub : g.cols.Sublist (gs.map (fun g => g.cols)).flatten :=
    List.sublist_flatten_of_mem (List.mem_map_of_mem _ hg)
  have hperm : (((gs.map (fun g => g.cols)).flatten).map sqi_block).Perm (A.map sqi_block) :=
    hG.2.1.map _
  have hnd2 : (((gs.map (fun g => g.cols)).flatten).map sqi_block).Nodup :=
    hperm.nodup_iff.mpr hnd
  exact List.Nodup.sublist (hsub.map _) hnd2

theorem two_mem_spread {g : SplitGroup} (hnd : (g.cols.map sqi_block).Nodup)
    (hlen : 2 ≤ g.cols.length)
    (hG3 : ∀ ch : Fin 3, chanSpread g.cols ch ≤ g.size) : 1 ≤ g.size := by
  rcases hc : g.cols with _ | ⟨x, rest⟩
  · rw [hc] at hlen; simp at hlen
  · rcases hr : rest with _ | ⟨y, t⟩
    · rw [hc, hr] at hlen; simp at hlen
    · rw [hc, hr] at hnd
      have hxy : sqi_block x ≠ sqi_block y := by
        simp only [List.map_cons, List.nodup_cons, List.mem_cons, List.mem_map] at hnd
        intro h
        exact hnd.1 (Or.inl h)
      have hcomp : ¬ ∀ ch : Fin 3, sqi_comp x ch = sqi_comp y ch := by
        intro h
        exact hxy (block_ne_of_comp_all_eq h)
      push_neg at hcomp
      obtain ⟨ch, hch⟩ := hcomp
      have hx : x ∈ g.cols := by rw [hc]; exact List.mem_cons_self _ _
      have hy : y ∈ g.cols := by
        rw [hc, hr]
        exact List.mem_cons_of_mem _ (List.mem_cons_self _ _)
      have := chanSpread_of_comp_ne hx hy hch
      have := hG3 ch
      omega

theorem selectedGroup_facts {A : List sqi_colorstruc} (hA : ∀ a ∈ A, ByteColor a)
    {gs : List SplitGroup} (hG : GoodGroups A gs) (hne : gs ≠ []) :
    (selectedGroup gs).cols.Perm (gs.getD (selectLargest gs) emptyGroup).cols ∧
      (selectedGroup gs).comp = (gs.getD (selectLargest gs) emptyGroup).comp ∧
      (selectedGroup gs).size = (gs.getD (selectLargest gs) emptyGroup).size ∧
      (selectedGroup gs).sum = (gs.getD (selectLargest gs) emptyGroup).sum := by
  have hsel := (selectLargest_spec gs hne).1
  have hgimem : gs.getD (selectLargest gs) emptyGroup ∈ gs := by
    rw [List.getD_eq_getElem _ _ hsel]
    exact List.getElem_mem hsel
  have hbytes : ∀ x ∈ (gs.getD (selectLargest gs) emptyGroup).cols, ByteColor x :=
    good_mem_bytes hA hG hgimem
  unfold selectedGroup
  by_cases hs : (gs.getD (selectLargest gs) emptyGroup).sortedBy ≠
      some (gs.getD (selectLargest gs) emptyGroup).comp
  · rw [if_pos hs]
    exact ⟨sqi_sort_group_perm (fun c hc => (hbytes c hc).comp_lt _), rfl, rfl, rfl⟩
  · rw [if_neg hs]
    exact ⟨List.Perm.refl _, rfl, rfl, rfl⟩

/-- One successful split-loop iteration: when the groups are fewer than the
distinct colors, the selected (and possibly re-sorted) group has at least
two member colors and a strictly positive recorded channel sum, the cut
succeeds, and the resulting group list satisfies the invariant again. -/
theorem split_step_good {A : List sqi_colorstruc} (hA : ∀ a ∈ A, ByteColor a)
    (hnd : (A.map sqi_block).Nodup) {gs : List SplitGroup} (hG : GoodGroups A gs)
    (hne : gs ≠ []) (hlen : gs.length < A.length) :
    2 ≤ (selectedGroup gs).cols.length ∧
      1 ≤ (selectedGroup gs).sum ∧
      ∃ front back,
        sqi_cut_group (selectedGroup gs).cols (selectedGroup gs).comp (selectedGroup gs).sum =
          some (front, back) ∧
        front ≠ [] ∧ back ≠ [] ∧
        GoodGroups A ((gs.set (selectLargest gs) (mkGroup front (selectedGroup gs).sortedBy)) ++
          [mkGroup back (selectedGroup gs).sortedBy]) := by
  obtain ⟨hsel, hsmax⟩ := selectLargest_spec gs hne
  have hgimem : gs.getD (selectLargest gs) emptyGroup ∈ gs := by
    rw [List.getD_eq_getElem _ _ hsel]
    exact List.getElem_mem hsel
  have hflen : ((gs.map (fun g => g.cols)).flatten).length = A.length := hG.2.1.length_eq
  obtain ⟨g2, hg2, hg2len⟩ := exists_big_group gs (by omega)
  have hg2size : 1 ≤ g2.size :=
    two_mem_spread (good_group_nodup_blocks hnd hG hg2) hg2len (hG.2.2 g2 hg2).2.2
  obtain ⟨j, hj, hjeq⟩ := List.mem_iff_getElem.mp hg2
  have hgisize : 1 ≤ (gs.getD (selectLargest gs) emptyGroup).size := by
    have hmax := hsmax j hj
    rw [List.getD_eq_getElem _ _ hj, hjeq] at hmax
    omega
  obtain ⟨hperm2, hcomp2, hsize2, hsum2⟩ := selectedGroup_facts hA hG hne
  obtain ⟨hsz, hsum, hle⟩ := hG.2.2 _ hgimem
  have hsz2 : (selectedGroup gs).size =
      chanSpread (selectedGroup gs).cols (selectedGroup gs).comp := by
    rw [hsize2, hcomp2, hsz, chanSpread_perm hperm2]
  have hsum2x : (selectedGroup gs).sum =
      chanSum (selectedGroup gs).cols (selectedGroup gs).comp := by
    rw [hsum2, hcomp2, hsum, chanSum_perm hperm2]
  have hspr : 1 ≤ chanSpread (selectedGroup gs).cols (selectedGroup gs).comp := by
    rw [← hsz2, hsize2]
    exact hgisize
  have hlen2 : 2 ≤ (selectedGroup gs).cols.length := chanSpread_one_le_two_mem hspr
  have hne2 : (selectedGroup gs).cols ≠ [] := by
    intro h
    rw [h] at hlen2
    simp at hlen2
  have hS : 1 ≤ chanSum (selectedGroup gs).cols (selectedGroup gs).comp := by
    have hm := chanMax_le_chanSum hne2 (selectedGroup gs).comp
    rw [chanSpread] at hspr
    omega
  obtain ⟨front, back, hcut, happ, hfne, hbne⟩ := sqi_cut_group_parts hS hlen2
  refine ⟨hlen2, by rw [hsum2x]; exact hS, front, back, by rw [hsum2x]; exact hcut,
    hfne, hbne, ?_, ?_, ?_⟩
  · intro g hg
    rcases List.mem_append.mp hg with h | h
    · rcases List.mem_or_eq_of_mem_set h with h2 | h2
      · exact hG.1 g h2
      · rw [h2]
        exact (mkGroup_stats hfne _).1.symm ▸ hfne
    · rw [List.mem_singleton.mp h]
      exact (mkGroup_stats hbne _).1.symm ▸ hbne
  · rw [List.perm_iff_count]
    intro a
    have hgsdecomp : gs = gs.take (selectLargest gs) ++
        (gs.getD (selectLargest gs) emptyGroup) :: gs.drop (selectLargest gs + 1) := by
      conv_lhs => rw [← List.take_append_drop (selectLargest gs) gs]
      rw [List.drop_eq_getElem_cons hsel, List.getD_eq_getElem _ _ hsel]
    have hold := (hG.2.1.count_eq a)
    rw [hgsdecomp] at hold
    have hset : gs.set (selectLargest gs) (mkGroup front (selectedGroup gs).sortedBy) =
        gs.take (selectLargest gs) ++ (mkGroup front (selectedGroup gs).sortedBy) ::
          gs.drop (selectLargest gs + 1) := by
      rw [List.set_eq_take_append_cons_drop, if_pos hsel]
    rw [hset]
    simp only [List.map_append, List.map_cons, List.map_nil, List.flatten_append,
      List.flatten_cons, List.flatten_nil, List.count_append, List.append_nil] at *
    have h2 := hperm2.count_eq a
    have h3 : front.count a + back.count a = ((selectedGroup gs).cols).count a := by
      rw [← happ, List.count_append]
    have hf : (mkGroup front (selectedGroup gs).sortedBy).cols = front := rfl
    have hb : (mkGroup back (selectedGroup gs).sortedBy).cols = back := rfl
    rw [hf, hb]
    omega
  · intro g hg
    rcases List.mem_append.mp hg with h | h
    · rcases List.mem_or_eq_of_mem_set h with h2 | h2
      · exact hG.2.2 g h2
      · rw [h2]
        obtain ⟨m1, _, m3, m4, m5⟩ := mkGroup_stats hfne (selectedGroup gs).sortedBy
        rw [← m1] at m3 m4 m5
        exact ⟨m3, m4, m5⟩
    · rw [List.mem_singleton.mp h]
      obtain ⟨m1, _, m3, m4, m5⟩ := mkGroup_stats hbne (selectedGroup gs).sortedBy
      rw [← m1] at m3 m4 m5
      exact ⟨m3, m4, m5⟩

/-- When there are more distinct colors than the requested width, the split
loop preserves the invariant, never takes the break branch, and grows the
group list by one per iteration up to the requested width. -/
theorem sq_split_loop_good {A : List sqi_colorstruc} (hA : ∀ a ∈ A, ByteColor a)
    (hnd : (A.map sqi_block).Nodup) (W : Nat) (hAW : W < A.length) :
    ∀ (fuel : Nat) (gs : List SplitGroup), GoodGroups A gs → gs ≠ [] → gs.length ≤ W →
      (sq_split_loop W fuel gs).2 = false ∧
      (sq_split_loop W fuel gs).1.length = min W (gs.length + fuel) ∧
      GoodGroups A (sq_split_loop W fuel gs).1 ∧
      (sq_split_loop W fuel gs).1 ≠ [] := by
  intro fuel
  induction fuel with
  | zero =>
    intro gs hG hne hle
    rw [sq_split_loop]
    refine ⟨rfl, ?_, hG, hne⟩
    show gs.length = min W (gs.length + 0)
    omega
  | succ f ih =>
    intro gs hG hne hle
    by_cases hlt : gs.length < W
    · obtain ⟨h2, h1s, front, back, hcut, hfne, hbne, hGood⟩ :=
        split_step_good hA hnd hG hne (by omega)
      have heq : sq_split_loop W (f+1) gs =
          sq_split_loop W f
            ((gs.set (selectLargest gs) (mkGroup front (selectedGroup gs).sortedBy)) ++
              [mkGroup back (selectedGroup gs).sortedBy]) := by
        rw [sq_split_loop, if_pos hlt, hcut]
      rw [heq]
      have hlen2 : ((gs.set (selectLargest gs) (mkGroup front (selectedGroup gs).sortedBy)) ++
          [mkGroup back (selectedGroup gs).sortedBy]).length = gs.length + 1 := by
        simp
      obtain ⟨r1, r2, r3, r4⟩ := ih _ hGood (by simp) (by omega)
      refine ⟨r1, ?_, r3, r4⟩
      rw [r2, hlen2]
      omega
    · rw [sq_split_loop, if_neg hlt]
      refine ⟨rfl, ?_, hG, hne⟩
      show gs.length = min W (gs.length + (f + 1))
      omega

theorem sq_split_loop_len_ge (W : Nat) (gs : List SplitGroup) (h : W ≤ gs.length) :
    ∀ f, sq_split_loop W f gs = (gs, false) := by
  intro f
  cases f with
  | zero => rfl
  | succ f => rw [sq_split_loop, if_neg (by omega)]

/-- Fuel beyond the requested width is irrelevant: each iteration either
exits or grows the group list by one, so any fuel covering the gap between
the current group count and the width gives the same result. -/
theorem sq_split_loop_fuel (W : Nat) :
    ∀ (f1 f2 : Nat) (gs : List SplitGroup), W ≤ gs.length + f1 → W ≤ gs.length + f2 →
      sq_split_loop W f1 gs = sq_split_loop W f2 gs := by
  intro f1
  induction f1 with
  | zero =>
    intro f2 gs h1 h2
    rw [sq_split_loop_len_ge W gs (by omega), sq_split_loop_len_ge W gs (by omega)]
  | succ f ih =>
    intro f2 gs h1 h2
    by_cases hlt : gs.length < W
    · cases f2 with
      | zero => exact absurd h2 (by omega)
      | succ f2b =>
        simp only [sq_split_loop, if_pos hlt]
        cases hcut : sqi_cut_group (selectedGroup gs).cols (selectedGroup gs).comp
            (selectedGroup gs).sum with
        | none => rfl
        | some p =>
          rcases p with ⟨front, back⟩
          apply ih
          · simp
            omega
          · simp
            omega
    · rw [sq_split_loop_len_ge W gs (by omega), sq_split_loop_len_ge W gs (by omega)]

/-! ## Index-map builders: get and length lemmas -/

theorem getD_set_ne (m : List Nat) (i j v d : Nat) (h : j ≠ i) :
    (m.set j v).getD i d = m.getD i d := by
  rw [List.getD_eq_getElem?_getD, List.getD_eq_getElem?_getD, List.getElem?_set_ne h]

theorem getD_set_self (m : List Nat) (i v d : Nat) (h : i < m.length) :
    (m.set i v).getD i d = v := by
  rw [List.getD_eq_getElem?_getD, List.getElem?_set_self h]
  rfl

theorem getD_map_lt (f : Nat → Nat) (m : List Nat) (i : Nat) (h : i < m.length) (d : Nat) :
    (m.map f).getD i d = f (m.getD i 0) := by
  rw [List.getD_eq_getElem _ _ (by simpa using h), List.getD_eq_getElem _ 0 h,
    List.getElem_map]

theorem foldl_set_length {α : Type} (f : α → Nat) (g : Nat → Nat) :
    ∀ (ps : List (Nat × α)) (m : List Nat),
      (ps.foldl (fun m p => m.set (f p.2) (g p.1)) m).length = m.length := by
  intro ps
  induction ps with
  | nil => intro m; rfl
  | cons q t ih =>
    intro m
    rw [List.foldl_cons, ih, List.length_set]

theorem foldl_set_get_notmem {α : Type} (f : α → Nat) (g : Nat → Nat) :
    ∀ (ps : List (Nat × α)) (m : List Nat) (i d : Nat),
      (∀ p ∈ ps, f p.2 ≠ i) →
      (ps.foldl (fun m p => m.set (f p.2) (g p.1)) m).getD i d = m.getD i d := by
  intro ps
  induction ps with
  | nil => intro m i d _; rfl
  | cons q t ih =>
    intro m i d h
    rw [List.foldl_cons, ih _ _ _ (fun p hp => h p (List.mem_cons_of_mem _ hp)),
      getD_set_ne _ _ _ _ _ (h q (List.mem_cons_self _ _))]

theorem foldl_set_enum_get {α : Type} (f : α → Nat) (g : Nat → Nat) :
    ∀ (l : List α) (k : Nat) (m : List Nat) (j : Nat) (hj : j < l.length) (d : Nat),
      ((l.map f).Nodup) → (∀ x ∈ l, f x < m.length) →
      ((List.enumFrom k l).foldl (fun m p => m.set (f p.2) (g p.1)) m).getD
        (f (l.get ⟨j, hj⟩)) d = g (k + j) := by
  intro l
  induction l with
  | nil =>
    intro k m j hj d _ _
    simp at hj
  | cons c t ih =>
    intro k m j hj d hnd hbound
    rw [List.enumFrom_cons, List.foldl_cons]
    have hnotin : f c ∉ t.map f := by
      rw [List.map_cons, List.nodup_cons] at hnd
      exact hnd.1
    cases j with
    | zero =>
      have hne : ∀ p ∈ List.enumFrom (k + 1) t, f p.2 ≠ f (( c :: t).get ⟨0, hj⟩) := by
        intro p hp hc
        apply hnotin
        have hpt : p.2 ∈ t := by
          have := List.enumFrom_map_snd (k+1) t
          rw [← this]
          exact List.mem_map_of_mem _ hp
        rw [List.mem_map]
        exact ⟨p.2, hpt, hc⟩
      rw [foldl_set_get_notmem _ _ _ _ _ _ hne]
      have : ((c :: t).get ⟨0, hj⟩) = c := rfl
      rw [this, getD_set_self _ _ _ _ (hbound c (List.mem_cons_self _ _))]
      simp
    | succ jb =>
      have hjb : jb < t.length := by
        simp only [List.length_cons] at hj
        omega
      have hget : ((c :: t).get ⟨jb + 1, hj⟩) = t.get ⟨jb, hjb⟩ := rfl
      rw [hget]
      have hnd2 : (t.map f).Nodup := by
        rw [List.map_cons, List.nodup_cons] at hnd
        exact hnd.2
      have hbound2 : ∀ x ∈ t, f x < (m.set (f c) (g k)).length := by
        intro x hx
        rw [List.length_set]
        exact hbound x (List.mem_cons_of_mem _ hx)
      have := ih (k + 1) (m.set (f c) (g k)) jb hjb d hnd2 hbound2
      rw [this]
      congr 1
      omega

theorem resolve_fold_length :
    ∀ (zer : List (Nat × Nat)) (m : List Nat),
      (zer.foldl (fun m p => m.set p.1 (m.getD p.2 0)) m).length = m.length := by
  intro zer
  induction zer with
  | nil => intro m; rfl
  | cons q t ih =>
    intro m
    rw [List.foldl_cons, ih, List.length_set]

theorem resolve_fold_get_notmem :
    ∀ (zer : List (Nat × Nat)) (m : List Nat) (i d : Nat),
      (∀ q ∈ zer, q.1 ≠ i) →
      (zer.foldl (fun m p => m.set p.1 (m.getD p.2 0)) m).getD i d = m.getD i d := by
  intro zer
  induction zer with
  | nil => intro m i d _; rfl
  | cons q t ih =>
    intro m i d h
    rw [List.foldl_cons, ih _ _ _ (fun p hp => h p (List.mem_cons_of_mem _ hp)),
      getD_set_ne _ _ _ _ _ (h q (List.mem_cons_self _ _))]

theorem resolve_fold_get_mem :
    ∀ (zer : List (Nat × Nat)) (m : List Nat),
      (zer.map Prod.fst).Nodup → (∀ q ∈ zer, q.2 ∉ zer.map Prod.fst) →
      (∀ q ∈ zer, q.1 < m.length) →
      ∀ q ∈ zer, (zer.foldl (fun m p => m.set p.1 (m.getD p.2 0)) m).getD q.1 0 =
        m.getD q.2 0 := by
  intro zer
  induction zer with
  | nil => intro m _ _ _ q hq; cases hq
  | cons q0 t ih =>
    intro m hnd hrefs hkey q hq
    rw [List.foldl_cons]
    have hnd2 : (t.map Prod.fst).Nodup := by
      rw [List.map_cons, List.nodup_cons] at hnd
      exact hnd.2
    have hnotin : q0.1 ∉ t.map Prod.fst := by
      rw [List.map_cons, List.nodup_cons] at hnd
      exact hnd.1
    rcases List.mem_cons.mp hq with h | h
    · rw [h]
      have hne : ∀ p ∈ t, p.1 ≠ q0.1 := by
        intro p hp hc
        exact hnotin (hc ▸ List.mem_map_of_mem _ hp)
      rw [resolve_fold_get_notmem t _ q0.1 0 hne,
        getD_set_self _ _ _ _ (hkey q0 (List.mem_cons_self _ _))]
    · have hrefs2 : ∀ p ∈ t, p.2 ∉ t.map Prod.fst := by
        intro p hp hc
        exact hrefs p (List.mem_cons_of_mem _ hp) (List.mem_cons_of_mem _ hc)
      have hkey2 : ∀ p ∈ t, p.1 < (m.set q0.1 (m.getD q0.2 0)).length := by
        intro p hp
        rw [List.length_set]
        exact hkey p (List.mem_cons_of_mem _ hp)
      rw [ih _ hnd2 hrefs2 hkey2 q h]
      have hq2ne : q.2 ≠ q0.1 := by
        intro hc
        exact hrefs q (List.mem_cons_of_mem _ h) (hc ▸ List.mem_cons_self _ _)
      exact getD_set_ne m q.2 q0.1 (m.getD q0.2 0) 0 (Ne.symm hq2ne)

theorem sq_resolve_zeros_length (zer : List (Nat × Nat)) (m : List Nat) :
    (sq_resolve_zeros zer m).length = m.length := by
  rw [sq_resolve_zeros]
  exact resolve_fold_length zer m

theorem sq_resolve_zeros_get_notmem (zer : List (Nat × Nat)) (m : List Nat) (i d : Nat)
    (h : ∀ q ∈ zer, q.1 ≠ i) : (sq_resolve_zeros zer m).getD i d = m.getD i d := by
  rw [sq_resolve_zeros]
  exact resolve_fold_get_notmem zer m i d h

theorem sq_resolve_zeros_get_mem (zer : List (Nat × Nat)) (m : List Nat)
    (hnd : (zer.map Prod.fst).Nodup) (hrefs : ∀ q ∈ zer, q.2 ∉ zer.map Prod.fst)
    (hkey : ∀ q ∈ zer, q.1 < m.length) :
    ∀ q ∈ zer, (sq_resolve_zeros zer m).getD q.1 0 = m.getD q.2 0 := by
  rw [sq_resolve_zeros]
  exact resolve_fold_get_mem zer m hnd hrefs hkey

/-! ## Registration and deduplication facts for the pipeline -/

theorem sq_register_idx (cols : List RGB) :
    (sq_register cols).map sqi_colorstruc.coloridx = List.range cols.length := by
  rw [sq_register, List.map_map]
  have : (sqi_colorstruc.coloridx ∘ fun p : Nat × RGB =>
      (⟨p.1, p.2.1 % 256, p.2.2.1 % 256, p.2.2.2 % 256⟩ : sqi_colorstruc)) = Prod.fst := by
    funext p
    rfl
  rw [this, List.enum_map_fst]

theorem sq_register_getD (cols : List RGB) (i : Nat) (hi : i < cols.length) :
    ((sq_register cols).getD i dummyColor).coloridx = i ∧
      (sq_register cols).getD i dummyColor ∈ sq_register cols := by
  have hlen : i < (sq_register cols).length := by rw [sq_register_length]; exact hi
  rw [List.getD_eq_getElem _ _ hlen]
  refine ⟨?_, List.getElem_mem hlen⟩
  have hmaps : i < ((sq_register cols).map sqi_colorstruc.coloridx).length := by
    simpa using hlen
  have hrange : i < (List.range cols.length).length := by simpa using hi
  have h5 : ((sq_register cols).map sqi_colorstruc.coloridx).getD i 0 =
      ((sq_register cols).get ⟨i, hlen⟩).coloridx := by
    rw [List.getD_eq_getElem _ _ hmaps, List.getElem_map]
    rfl
  have h6 : ((sq_register cols).map sqi_colorstruc.coloridx).getD i 0 = i := by
    rw [sq_register_idx cols, List.getD_eq_getElem _ _ hrange]
    simp
  show ((sq_register cols).get ⟨i, hlen⟩).coloridx = i
  rw [← h5, h6]

theorem sq_register_unique {cols : List RGB} {x : sqi_colorstruc}
    (hx : x ∈ sq_register cols) :
    x.coloridx < cols.length ∧ x = (sq_register cols).getD x.coloridx dummyColor := by
  have hnd : ((sq_register cols).map sqi_colorstruc.coloridx).Nodup := by
    rw [sq_register_idx]
    exact List.nodup_range _
  have hmem : x.coloridx ∈ (sq_register cols).map sqi_colorstruc.coloridx :=
    List.mem_map_of_mem _ hx
  have hlt : x.coloridx < cols.length := by
    rw [sq_register_idx] at hmem
    exact List.mem_range.mp hmem
  obtain ⟨hidx, hmem2⟩ := sq_register_getD cols x.coloridx hlt
  refine ⟨hlt, List.inj_on_of_nodup_map hnd hx hmem2 ?_⟩
  rw [hidx]

/-- The bundle of facts about the deduplication stage that the path-level
claims rely on. -/
theorem sq_stage_dn_facts (cols : List RGB) (hne : cols ≠ []) {act : List sqi_colorstruc}
    {zer : List (Nat × Nat)} (heq : sq_stage_dn cols = (act, zer)) :
    (∀ a ∈ act, a ∈ sq_register cols) ∧
      (act.map sqi_block).Nodup ∧
      (∀ a ∈ act, ByteColor a) ∧
      (∀ q ∈ zer, ∃ cz ∈ sq_register cols, cz.coloridx = q.1 ∧
        ∃ ca ∈ act, ca.coloridx = q.2 ∧ sqi_block ca = sqi_block cz) ∧
      (act.map sqi_colorstruc.coloridx ++ zer.map Prod.fst).Perm
        (List.range cols.length) ∧
      (∀ x ∈ sq_register cols, ∃ a ∈ act, sqi_block a = sqi_block x) ∧
      act ≠ [] ∧ act.length + zer.length = cols.length := by
  have hB : ∀ x ∈ sq_register cols, ByteColor x := fun x hx => sq_register_bytes hx
  have hne2 : sq_register cols ≠ [] := by
    intro h
    have := sq_register_length cols
    rw [h] at this
    simp at this
    exact hne (List.length_eq_zero.mp this.symm)
  rw [sq_stage_dn] at heq
  obtain ⟨d1, d2, d3, d4, d5, d6⟩ := sqi_dupenuke_spec (sq_register cols) hB hne2 heq
  have hBact : ∀ a ∈ act, ByteColor a := fun a ha => hB a (d1 a ha)
  have hperm : (act.map sqi_colorstruc.coloridx ++ zer.map Prod.fst).Perm
      (List.range cols.length) := by
    have := d4.symm
    rw [sq_register_idx] at this
    exact this
  refine ⟨d1, blocks_nodup hBact d2, hBact, d3, hperm, d5, d6, ?_⟩
  have := hperm.length_eq
  simp only [List.length_append, List.length_map, List.length_range] at this
  exact this

/-- Index-side corollaries of the partition: the active indices and the
zero keys are duplicate-free, disjoint, in range, and the zero
back-references are active indices. -/
theorem sq_stage_dn_idx_facts (cols : List RGB) (hne : cols ≠ [])
    {act : List sqi_colorstruc} {zer : List (Nat × Nat)}
    (heq : sq_stage_dn cols = (act, zer)) :
    (act.map sqi_colorstruc.coloridx).Nodup ∧
      (zer.map Prod.fst).Nodup ∧
      (∀ a ∈ act, a.coloridx ∉ zer.map Prod.fst) ∧
      (∀ q ∈ zer, q.1 < cols.length) ∧
      (∀ a ∈ act, a.coloridx < cols.length) ∧
      (∀ q ∈ zer, q.2 ∉ zer.map Prod.fst) := by
  obtain ⟨d1, d2, d3, d4, d5, d6, d7, d8⟩ := sq_stage_dn_facts cols hne heq
  have hnd : (act.map sqi_colorstruc.coloridx ++ zer.map Prod.fst).Nodup :=
    (d5.symm).nodup_iff.mp (List.nodup_range _)
  rw [List.nodup_append] at hnd
  obtain ⟨h1, h2, h3⟩ := hnd
  have hmemrange : ∀ x, x ∈ act.map sqi_colorstruc.coloridx ++ zer.map Prod.fst →
      x < cols.length := by
    intro x hx
    have := d5.mem_iff.mp hx
    exact List.mem_range.mp this
  refine ⟨h1, h2, ?_, ?_, ?_, ?_⟩
  · intro a ha
    exact h3 (List.mem_map_of_mem _ ha)
  · intro q hq
    exact hmemrange _ (List.mem_append.mpr (Or.inr (List.mem_map_of_mem _ hq)))
  · intro a ha
    exact hmemrange _ (List.mem_append.mpr (Or.inl (List.mem_map_of_mem _ ha)))
  · intro q hq
    obtain ⟨cz, _, _, ca, hca, hca2, _⟩ := d4 q hq
    rw [← hca2]
    exact h3 (List.mem_map_of_mem _ hca)

/-- After the zero-list resolution, two original indices registered with
the same packed color map to the same byte, whatever index map the active
colors were given beforehand: each duplicate reads its value through the
unique active survivor of its color. -/
theorem resolve_same_block (cols : List RGB) (hne : cols ≠ [])
    {act : List sqi_colorstruc} {zer : List (Nat × Nat)}
    (heq : sq_stage_dn cols = (act, zer)) {i j : Nat}
    (hi : i < cols.length) (hj : j < cols.length)
    (hsame : sqi_block ((sq_register cols).getD i dummyColor) =
      sqi_block ((sq_register cols).getD j dummyColor))
    (m : List Nat) (hm : m.length = cols.length) :
    (sq_resolve_zeros zer m).getD i 0 = (sq_resolve_zeros zer m).getD j 0 := by
  obtain ⟨d1, d2, d3, d4, d5, d6, d7, d8⟩ := sq_stage_dn_facts cols hne heq
  obtain ⟨n1, n2, n3, n4, n5, n6⟩ := sq_stage_dn_idx_facts cols hne heq
  have hsplit : ∀ x, x < cols.length →
      (sq_register cols).getD x dummyColor ∈ act ∨ x ∈ zer.map Prod.fst := by
    intro x hx
    have hxr : x ∈ List.range cols.length := List.mem_range.mpr hx
    have := d5.mem_iff.mpr hxr
    rcases List.mem_append.mp this with h | h
    · left
      rw [List.mem_map] at h
      obtain ⟨a, ha, ha2⟩ := h
      obtain ⟨_, hu⟩ := sq_register_unique (d1 a ha)
      rw [ha2] at hu
      exact hu ▸ ha
    · exact Or.inr h
  have hzerq : ∀ x, x < cols.length → ∀ q ∈ zer, q.1 = x →
      ∃ ca ∈ act, ca.coloridx = q.2 ∧
        sqi_block ca = sqi_block ((sq_register cols).getD x dummyColor) := by
    intro x hx q hq hq1
    obtain ⟨cz, hcz, hcz1, ca, hca, hca2, hca3⟩ := d4 q hq
    obtain ⟨_, hu⟩ := sq_register_unique hcz
    rw [hcz1, hq1] at hu
    exact ⟨ca, hca, hca2, by rw [hca3, ← hu]⟩
  have hval_act : ∀ x, x < cols.length → (sq_register cols).getD x dummyColor ∈ act →
      (sq_resolve_zeros zer m).getD x 0 = m.getD x 0 := by
    intro x hx hmem
    refine sq_resolve_zeros_get_notmem zer m x 0 ?_
    intro q hq hc
    have h2 := n3 _ hmem
    rw [(sq_register_getD cols x hx).1] at h2
    exact h2 (hc ▸ List.mem_map_of_mem _ hq)
  have hval_zer : ∀ q ∈ zer, (sq_resolve_zeros zer m).getD q.1 0 = m.getD q.2 0 :=
    sq_resolve_zeros_get_mem zer m n2 n6 (fun q hq => by rw [hm]; exact n4 q hq)
  have hactcase : ∀ x, x < cols.length → (sq_register cols).getD x dummyColor ∈ act →
      ∀ q ∈ zer, sqi_block ((sq_register cols).getD q.1 dummyColor) =
        sqi_block ((sq_register cols).getD x dummyColor) → q.2 = x := by
    intro x hx hmem q hq hblk
    obtain ⟨ca, hca, hca2, hca3⟩ := hzerq q.1 (n4 q hq) q hq rfl
    have : ca = (sq_register cols).getD x dummyColor :=
      block_unique d2 hca hmem (by rw [hca3, hblk])
    rw [← hca2, this, (sq_register_getD cols x hx).1]
  rcases hsplit i hi with hia | hiz
  · rcases hsplit j hj with hja | hjz
    · have : (sq_register cols).getD i dummyColor = (sq_register cols).getD j dummyColor :=
        block_unique d2 hia hja hsame
      have hij : i = j := by
        have h1 := (sq_register_getD cols i hi).1
        have h2 := (sq_register_getD cols j hj).1
        rw [← h1, ← h2, this]
      rw [hij]
    · rw [List.mem_map] at hjz
      obtain ⟨q, hq, hq1⟩ := hjz
      have hq2 : q.2 = i := hactcase i hi hia q hq (by rw [hq1, ← hsame])
      rw [← hq1, hval_zer q hq, hq2, hval_act i hi hia]
  · rw [List.mem_map] at hiz
    obtain ⟨q, hq, hq1⟩ := hiz
    rcases hsplit j hj with hja | hjz
    · have hq2 : q.2 = j := hactcase j hj hja q hq (by rw [hq1, hsame])
      rw [← hq1, hval_zer q hq, hq2, hval_act j hj hja]
    · rw [List.mem_map] at hjz
      obtain ⟨p, hp, hp1⟩ := hjz
      obtain ⟨ca, hca, hca2, hca3⟩ := hzerq i hi q hq hq1
      obtain ⟨cb, hcb, hcb2, hcb3⟩ := hzerq j hj p hp hp1
      have hab : ca = cb := block_unique d2 hca hcb (by rw [hca3, hcb3, hsame])
      rw [← hq1, ← hp1, hval_zer q hq, hval_zer p hp, ← hca2, ← hcb2, hab]

/-! ## The pipeline paths of sq_reduce -/

theorem act_length_distinct (cols : List RGB) (hne : cols ≠ [])
    {act : List sqi_colorstruc} {zer : List (Nat × Nat)}
    (heq : sq_stage_dn cols = (act, zer)) : act.length = distinctColorCount cols := by
  obtain ⟨d1, d2, d3, d4, d5, d6, d7, d8⟩ := sq_stage_dn_facts cols hne heq
  have h1 : act.length = (act.map sqi_block).length := by rw [List.length_map]
  have h2 : (act.map sqi_block).length = (act.map sqi_block).toFinset.card :=
    (List.toFinset_card_of_nodup d2).symm
  have h3 : (((sq_register cols).map sqi_block).dedup).length =
      (((sq_register cols).map sqi_block).dedup).toFinset.card :=
    (List.toFinset_card_of_nodup (List.nodup_dedup _)).symm
  have h4 : (act.map sqi_block).toFinset =
      (((sq_register cols).map sqi_block).dedup).toFinset := by
    apply Finset.ext
    intro b
    rw [List.mem_toFinset, List.mem_toFinset, List.mem_dedup]
    constructor
    · intro h
      rw [List.mem_map] at h
      obtain ⟨a, ha, ha2⟩ := h
      exact ha2 ▸ List.mem_map_of_mem _ (d1 a ha)
    · intro h
      rw [List.mem_map] at h
      obtain ⟨x, hx, hx2⟩ := h
      obtain ⟨a, ha, ha2⟩ := d6 x hx
      exact hx2 ▸ ha2 ▸ List.mem_map_of_mem _ ha
  rw [distinctColorCount, h1, h2, h4, ← h3]

theorem sq_stage_groups_spec (cols : List RGB) (W : Nat) (hne : cols ≠ []) (hW : 1 ≤ W)
    {act : List sqi_colorstruc} {zer : List (Nat × Nat)}
    (heq : sq_stage_dn cols = (act, zer)) (hD : W < act.length) :
    (sq_stage_groups cols W).length = W ∧
      GoodGroups act (sq_stage_groups cols W) ∧
      (sq_split_loop W W [mkGroup act none]).2 = false ∧
      sq_stage_groups cols W ≠ [] := by
  obtain ⟨d1, d2, d3, d4, d5, d6, d7, d8⟩ := sq_stage_dn_facts cols hne heq
  have hG0 : GoodGroups act [mkGroup act none] := by
    obtain ⟨m1, _, m3, m4, m5⟩ := mkGroup_stats d7 (none : Option (Fin 3))
    refine ⟨?_, ?_, ?_⟩
    · intro g hg
      rw [List.mem_singleton.mp hg, m1]
      exact d7
    · simp only [List.map_cons, List.map_nil, List.flatten_cons, List.flatten_nil,
        List.append_nil, m1]
      exact List.Perm.refl _
    · intro g hg
      rw [List.mem_singleton.mp hg]
      rw [← m1] at m3 m4 m5
      exact ⟨m3, m4, m5⟩
  obtain ⟨r1, r2, r3, r4⟩ := sq_split_loop_good d3 d2 W hD W [mkGroup act none] hG0
    (by simp) (by simp; omega)
  have hgs : sq_stage_groups cols W = (sq_split_loop W W [mkGroup act none]).1 := by
    rw [sq_stage_groups, heq]
  refine ⟨?_, ?_, r1, ?_⟩
  · rw [hgs, r2]
    simp
  · rw [hgs]
    exact r3
  · rw [hgs]
    exact r4

theorem sq_synth_pal_length (cols : List RGB) (W : Nat)
    (hgs : (sq_stage_groups cols W).length = W) : (sq_synth_pal cols W).length = W := by
  rw [sq_synth_pal]
  simp [hgs]

theorem sq_reduceF_succ_fits (fuel : Nat) (cols : List RGB) (W : Nat) (h1 : cols ≠ [])
    (hW : 1 ≤ W) (hfits : cols.length - (sq_stage_dn cols).2.length ≤ W) :
    sq_reduceF (fuel + 1) cols W =
      some (sq_fits (sq_stage_dn cols).1 (sq_stage_dn cols).2 cols.length
        (cols.length - (sq_stage_dn cols).2.length)) := by
  have hcond : ¬ (cols.isEmpty ∨ W = 0) := by
    simp only [List.isEmpty_iff]
    push_neg
    exact ⟨h1, by omega⟩
  rw [sq_reduceF, if_neg hcond, if_pos hfits]

theorem fits_sort_perm {l : List sqi_colorstruc} (h : ∀ c ∈ l, ByteColor c) :
    (sqi_sort_group (sqi_sort_group (sqi_sort_group l 0) 2) 1).Perm l := by
  have h0 : (sqi_sort_group l 0).Perm l :=
    sqi_sort_group_perm (fun c hc => (h c hc).comp_lt 0)
  have hm0 : ∀ c ∈ sqi_sort_group l 0, ByteColor c :=
    fun c hc => h c (mem_sqi_sort_group hc)
  have h2 : (sqi_sort_group (sqi_sort_group l 0) 2).Perm (sqi_sort_group l 0) :=
    sqi_sort_group_perm (fun c hc => (hm0 c hc).comp_lt 2)
  have hm2 : ∀ c ∈ sqi_sort_group (sqi_sort_group l 0) 2, ByteColor c :=
    fun c hc => hm0 c (mem_sqi_sort_group hc)
  have h1 : (sqi_sort_group (sqi_sort_group (sqi_sort_group l 0) 2) 1).Perm
      (sqi_sort_group (sqi_sort_group l 0) 2) :=
    sqi_sort_group_perm (fun c hc => (hm2 c hc).comp_lt 1)
  exact (h1.trans h2).trans h0

theorem headD_mem {l : List sqi_colorstruc} (h : l ≠ []) (d : sqi_colorstruc) :
    l.headD d ∈ l := by
  cases l with
  | nil => exact absurd rfl h
  | cons c t => exact List.mem_cons_self _ _

theorem heads_nodup {A : List sqi_colorstruc}
    (hidx : (A.map sqi_colorstruc.coloridx).Nodup)
    {gs : List SplitGroup} (hG : GoodGroups A gs) :
    (gs.map (fun g => (g.cols.headD dummyColor).coloridx)).Nodup := by
  have hfl : (((gs.map (fun g => g.cols)).flatten).map sqi_colorstruc.coloridx).Nodup :=
    (hG.2.1.map _).nodup_iff.mpr hidx
  rw [List.map_flatten, List.map_map] at hfl
  obtain ⟨_, hdisj⟩ := List.nodup_flatten.mp hfl
  rw [List.pairwise_map] at hdisj
  have hpw : gs.Pairwise (fun g1 g2 =>
      (g1.cols.headD dummyColor).coloridx ≠ (g2.cols.headD dummyColor).coloridx) := by
    refine List.Pairwise.imp_of_mem ?_ hdisj
    intro g1 g2 hg1 hg2 hd hc
    have hne1 : g1.cols ≠ [] := hG.1 g1 hg1
    have hne2 : g2.cols ≠ [] := hG.1 g2 hg2
    have hd2 : List.Disjoint (g1.cols.map sqi_colorstruc.coloridx)
        (g2.cols.map sqi_colorstruc.coloridx) := hd
    have hm1 : (g1.cols.headD dummyColor).coloridx ∈ g1.cols.map sqi_colorstruc.coloridx :=
      List.mem_map_of_mem _ (headD_mem hne1 _)
    have hm2 : (g2.cols.headD dummyColor).coloridx ∈ g2.cols.map sqi_colorstruc.coloridx :=
      List.mem_map_of_mem _ (headD_mem hne2 _)
    exact (List.disjoint_left.mp hd2) hm1 (hc ▸ hm2)
  exact List.pairwise_map.mpr hpw

theorem sq_reduceF_succ_split (fuel : Nat) (cols : List RGB) (W : Nat) (h1 : cols ≠ [])
    (hW : 1 ≤ W) (hsplit : ¬ (cols.length - (sq_stage_dn cols).2.length ≤ W))
    {inner : SQResult} (hinner : sq_reduceF fuel (sq_synth_pal cols W) W = some inner) :
    sq_reduceF (fuel + 1) cols W =
      some { idxmap := (sq_stage_idx cols W).map (fun v => inner.idxmap.getD v 0),
             pal := inner.pal, width := inner.width } := by
  have hcond : ¬ (cols.isEmpty ∨ W = 0) := by
    simp only [List.isEmpty_iff]
    push_neg
    exact ⟨h1, by omega⟩
  rw [sq_reduceF, if_neg hcond, if_neg hsplit, hinner]

theorem sq_stage_idx_length (cols : List RGB) (W : Nat) :
    (sq_stage_idx cols W).length = cols.length := by
  rw [sq_stage_idx, sq_resolve_zeros_length, sq_synth_idxmap]
  rw [foldl_set_length (fun gr : SplitGroup => (gr.cols.headD dummyColor).coloridx)
    (fun k => k % 256)]
  exact List.length_replicate _ _

theorem sq_fits_idx_length (act : List sqi_colorstruc) (zer : List (Nat × Nat))
    (n palwid : Nat) : (sq_fits act zer n palwid).idxmap.length = n := by
  show (sq_resolve_zeros zer _).length = n
  rw [sq_resolve_zeros_length]
  rw [foldl_set_length (fun c : sqi_colorstruc => c.coloridx) (fun k => k % 256)]
  exact List.length_replicate _ _

/-- Coverage of the Fits path: every palette slot below the achieved width
has an original index mapped to it (the position write of the sorted
distinct colors), as long as the achieved width fits in a byte. -/
theorem sq_fits_cover (cols : List RGB) (hne : cols ≠ [])
    {act : List sqi_colorstruc} {zer : List (Nat × Nat)}
    (heq : sq_stage_dn cols = (act, zer)) (h256 : act.length ≤ 256) :
    ∀ s, s < act.length → ∃ i, i < cols.length ∧
      (sq_fits act zer cols.length (cols.length - zer.length)).idxmap.getD i 0 = s := by
  obtain ⟨d1, d2, d3, d4, d5, d6, d7, d8⟩ := sq_stage_dn_facts cols hne heq
  obtain ⟨n1, n2, n3, n4, n5, n6⟩ := sq_stage_dn_idx_facts cols hne heq
  intro s hs
  have hsp : (sqi_sort_group (sqi_sort_group (sqi_sort_group act 0) 2) 1).Perm act :=
    fits_sort_perm d3
  have hs2 : s < (sqi_sort_group (sqi_sort_group (sqi_sort_group act 0) 2) 1).length := by
    rw [hsp.length_eq]
    omega
  have hamem : (sqi_sort_group (sqi_sort_group (sqi_sort_group act 0) 2) 1).get ⟨s, hs2⟩ ∈ act :=
    hsp.mem_iff.mp (List.get_mem _ _ hs2)
  have hnd : ((sqi_sort_group (sqi_sort_group (sqi_sort_group act 0) 2) 1).map
      sqi_colorstruc.coloridx).Nodup := (hsp.map _).nodup_iff.mpr n1
  have hbound : ∀ x ∈ sqi_sort_group (sqi_sort_group (sqi_sort_group act 0) 2) 1,
      x.coloridx < (List.replicate cols.length (0 : Nat)).length := by
    intro x hx
    rw [List.length_replicate]
    exact n5 x (hsp.mem_iff.mp hx)
  have hfold := foldl_set_enum_get sqi_colorstruc.coloridx (fun k => k % 256)
    (sqi_sort_group (sqi_sort_group (sqi_sort_group act 0) 2) 1) 0
    (List.replicate cols.length 0) s hs2 0 hnd hbound
  refine ⟨((sqi_sort_group (sqi_sort_group (sqi_sort_group act 0) 2) 1).get ⟨s, hs2⟩).coloridx,
    n5 _ hamem, ?_⟩
  show (sq_resolve_zeros zer _).getD _ 0 = s
  rw [sq_resolve_zeros_get_notmem]
  · have henum : (sqi_sort_group (sqi_sort_group (sqi_sort_group act 0) 2) 1).enum =
        List.enumFrom 0 (sqi_sort_group (sqi_sort_group (sqi_sort_group act 0) 2) 1) := rfl
    rw [henum, hfold]
    have : s < 256 := by omega
    simp [Nat.mod_eq_of_lt this]
  · intro q hq hc
    exact n3 _ hamem (hc ▸ List.mem_map_of_mem _ hq)

/-- Coverage of the split path before the reorder remap: every group slot
below the requested width receives at least its first member's original
index, as long as the width fits in a byte. -/
theorem sq_stage_idx_cover (cols : List RGB) (W : Nat) (hne : cols ≠ []) (hW : 1 ≤ W)
    {act : List sqi_colorstruc} {zer : List (Nat × Nat)}
    (heq : sq_stage_dn cols = (act, zer)) (hD : W < act.length) (h256 : W ≤ 256) :
    ∀ s, s < W → ∃ i, i < cols.length ∧ (sq_stage_idx cols W).getD i 0 = s := by
  obtain ⟨d1, d2, d3, d4, d5, d6, d7, d8⟩ := sq_stage_dn_facts cols hne heq
  obtain ⟨n1, n2, n3, n4, n5, n6⟩ := sq_stage_dn_idx_facts cols hne heq
  obtain ⟨hglen, hGood, _, hgne⟩ := sq_stage_groups_spec cols W hne hW heq hD
  intro s hs
  have hs2 : s < (sq_stage_groups cols W).length := by omega
  have hgmem : (sq_stage_groups cols W).get ⟨s, hs2⟩ ∈ sq_stage_groups cols W :=
    List.get_mem _ _ hs2
  have hcolsne : ((sq_stage_groups cols W).get ⟨s, hs2⟩).cols ≠ [] := hGood.1 _ hgmem
  have hheadmem : ((sq_stage_groups cols W).get ⟨s, hs2⟩).cols.headD dummyColor ∈
      ((sq_stage_groups cols W).get ⟨s, hs2⟩).cols := headD_mem hcolsne _
  have hheadact : ((sq_stage_groups cols W).get ⟨s, hs2⟩).cols.headD dummyColor ∈ act :=
    hGood.2.1.mem_iff.mp (List.mem_flatten.mpr
      ⟨_, List.mem_map_of_mem _ hgmem, hheadmem⟩)
  have hnd := heads_nodup n1 hGood
  have hbound : ∀ gr ∈ sq_stage_groups cols W,
      (gr.cols.headD dummyColor).coloridx < (List.replicate cols.length (0 : Nat)).length := by
    intro gr hgr
    rw [List.length_replicate]
    refine n5 _ (hGood.2.1.mem_iff.mp (List.mem_flatten.mpr
      ⟨_, List.mem_map_of_mem _ hgr, headD_mem (hGood.1 gr hgr) _⟩))
  have hfold := foldl_set_enum_get (fun gr : SplitGroup => (gr.cols.headD dummyColor).coloridx)
    (fun k => k % 256) (sq_stage_groups cols W) 0
    (List.replicate cols.length 0) s hs2 0 hnd hbound
  refine ⟨(((sq_stage_groups cols W).get ⟨s, hs2⟩).cols.headD dummyColor).coloridx,
    n5 _ hheadact, ?_⟩
  rw [sq_stage_idx, heq]
  show (sq_resolve_zeros zer _).getD _ 0 = s
  rw [sq_resolve_zeros_get_notmem]
  · rw [sq_synth_idxmap]
    have henum : (sq_stage_groups cols W).enum = List.enumFrom 0 (sq_stage_groups cols W) := rfl
    rw [henum, hfold]
    have : s < 256 := by omega
    simp [Nat.mod_eq_of_lt this]
  · intro q hq hc
    exact n3 _ hheadact (hc ▸ List.mem_map_of_mem _ hq)

/-- A non-empty input whose distinct colors fit the requested width takes
the early-returning Fits path. -/
theorem sq_reduce_fits_eq (cols : List RGB) (W : Nat) (hne : cols ≠ []) (hW : 1 ≤ W)
    (hfits : cols.length - (sq_stage_dn cols).2.length ≤ W) :
    sq_reduce cols W = some (sq_fits (sq_stage_dn cols).1 (sq_stage_dn cols).2 cols.length
      (cols.length - (sq_stage_dn cols).2.length)) := by
  rw [sq_reduce]
  show sq_reduceF (1 + 1) cols W = _
  exact sq_reduceF_succ_fits 1 cols W hne hW hfits

/-- In the split path the synthesized palette has exactly W entries, the
inner SQI_RE_SORT quantization succeeds through its Fits path with a final
width equal to the palette buffer's distinct color count (at most W), and
sq_reduce returns the remapped result. -/
theorem innerFits_facts (cols : List RGB) (W : Nat) (hne : cols ≠ []) (hW : 1 ≤ W)
    (hsplit : W < cols.length - (sq_stage_dn cols).2.length) :
    (sq_synth_pal cols W).length = W ∧ sq_synth_pal cols W ≠ [] ∧
    (innerFits cols W).width = (sq_stage_dn (sq_synth_pal cols W)).1.length ∧
    (innerFits cols W).width ≤ W ∧
    sq_reduce cols W = some
      { idxmap := (sq_stage_idx cols W).map (fun v => (innerFits cols W).idxmap.getD v 0),
        pal := (innerFits cols W).pal,
        width := (innerFits cols W).width } := by
  have heq : sq_stage_dn cols = ((sq_stage_dn cols).1, (sq_stage_dn cols).2) := rfl
  obtain ⟨d1, d2, d3, d4, d5, d6, d7, d8⟩ := sq_stage_dn_facts cols hne heq
  have hD : W < (sq_stage_dn cols).1.length := by omega
  obtain ⟨hglen, _, _, _⟩ := sq_stage_groups_spec cols W hne hW heq hD
  have hplen : (sq_synth_pal cols W).length = W := sq_synth_pal_length cols W hglen
  have hpne : sq_synth_pal cols W ≠ [] := by
    intro h
    rw [h] at hplen
    simp at hplen
    omega
  have heq1 : sq_stage_dn (sq_synth_pal cols W) =
      ((sq_stage_dn (sq_synth_pal cols W)).1, (sq_stage_dn (sq_synth_pal cols W)).2) := rfl
  obtain ⟨e1, e2, e3, e4, e5, e6, e7, e8⟩ := sq_stage_dn_facts (sq_synth_pal cols W) hpne heq1
  have hfits1 : (sq_synth_pal cols W).length -
      (sq_stage_dn (sq_synth_pal cols W)).2.length ≤ W := by omega
  have hinner : sq_reduceF 1 (sq_synth_pal cols W) W = some (innerFits cols W) := by
    show sq_reduceF (0 + 1) _ _ = _
    exact sq_reduceF_succ_fits 0 _ W hpne hW hfits1
  have hwidth : (innerFits cols W).width =
      (sq_synth_pal cols W).length - (sq_stage_dn (sq_synth_pal cols W)).2.length := rfl
  refine ⟨hplen, hpne, ?_, ?_, ?_⟩
  · rw [hwidth]; omega
  · rw [hwidth]; omega
  · rw [sq_reduce]
    show sq_reduceF (1 + 1) cols W = _
    exact sq_reduceF_succ_split 1 cols W hne hW (by omega) hinner

/-- The split loop never grows the group list past the requested width. -/
theorem sq_split_loop_length_le (W : Nat) :
    ∀ (f : Nat) (gs : List SplitGroup), gs.length ≤ W →
      (sq_split_loop W f gs).1.length ≤ W := by
  intro f
  induction f with
  | zero => intro gs h; exact h
  | succ f ih =>
    intro gs h
    by_cases hlt : gs.length < W
    · rw [sq_split_loop, if_pos hlt]
      cases hcut : sqi_cut_group (selectedGroup gs).cols (selectedGroup gs).comp
          (selectedGroup gs).sum with
      | none => simpa using h
      | some p =>
        rcases p with ⟨front, back⟩
        refine ih _ ?_
        simp only [List.length_append, List.length_set, List.length_cons, List.length_nil]
        omega
    · rw [sq_split_loop, if_neg hlt]
      exact h

/-- A getD read of a list whose entries are all below 256 is below 256
(the default 0 included). -/
theorem getD_lt_of_entries (m : List Nat) (h : ∀ x ∈ m, x < 256) (i : Nat) :
    m.getD i 0 < 256 := by
  rcases hx : m[i]? with _ | v
  · rw [List.getD_eq_getElem?_getD, hx]
    show 0 < 256
    omega
  · rw [List.getD_eq_getElem?_getD, hx]
    exact h v (List.getElem?_mem hx)

/-- Position writes reduced modulo 256 keep every index-map entry below
256. -/
theorem foldl_set_entries_lt {α : Type} (f : α → Nat) (g : Nat → Nat)
    (hg : ∀ k, g k < 256) :
    ∀ (ps : List (Nat × α)) (m : List Nat), (∀ x ∈ m, x < 256) →
      ∀ x ∈ ps.foldl (fun m p => m.set (f p.2) (g p.1)) m, x < 256 := by
  intro ps
  induction ps with
  | nil => intro m h x hx; exact h x hx
  | cons q t ih =>
    intro m h x hx
    rw [List.foldl_cons] at hx
    refine ih _ ?_ x hx
    intro y hy
    rcases List.mem_or_eq_of_mem_set hy with h1 | h1
    · exact h y h1
    · rw [h1]
      exact hg q.1

/-- The zero-list resolution copies existing bytes, so it keeps every
index-map entry below 256. -/
theorem resolve_fold_entries_lt :
    ∀ (zer : List (Nat × Nat)) (m : List Nat), (∀ x ∈ m, x < 256) →
      ∀ x ∈ zer.foldl (fun m p => m.set p.1 (m.getD p.2 0)) m, x < 256 := by
  intro zer
  induction zer with
  | nil => intro m h x hx; exact h x hx
  | cons q t ih =>
    intro m h x hx
    rw [List.foldl_cons] at hx
    refine ih _ ?_ x hx
    intro y hy
    rcases List.mem_or_eq_of_mem_set hy with h1 | h1
    · exact h y h1
    · rw [h1]
      exact getD_lt_of_entries m h q.2

/-- Every byte of the Fits path's index map is below 256: the palette
index writes are unsigned char stores. -/
theorem sq_fits_idx_entries (act : List sqi_colorstruc) (zer : List (Nat × Nat))
    (n palwid : Nat) : ∀ x ∈ (sq_fits act zer n palwid).idxmap, x < 256 := by
  show ∀ x ∈ sq_resolve_zeros zer _, x < 256
  rw [sq_resolve_zeros]
  refine resolve_fold_entries_lt zer _ ?_
  refine foldl_set_entries_lt sqi_colorstruc.coloridx (fun k => k % 256)
    (fun k => Nat.mod_lt _ (by omega)) _ _ ?_
  intro y hy
  rw [List.eq_of_mem_replicate hy]
  omega

/-- One bucket-sort pass keeps the relative order of the colors sharing
any fixed packed block: same-block colors agree in every channel, so they
share a bucket in every pass. -/
theorem sqi_sort_group_stable_block {l : List sqi_colorstruc} {ch : Fin 3}
    (hB : ∀ c ∈ l, ByteColor c) (B : Nat) :
    (sqi_sort_group l ch).filter (fun c => sqi_block c == B) =
      l.filter (fun c => sqi_block c == B) := by
  by_cases hex : ∃ c0 ∈ l, sqi_block c0 = B
  · obtain ⟨c0, hc0, hc0B⟩ := hex
    have hv : sqi_comp c0 ch < 256 := (hB c0 hc0).comp_lt ch
    have hcomp : ∀ c ∈ l, sqi_block c = B → sqi_comp c ch = sqi_comp c0 ch := by
      intro c hc hcB
      have hbb : sqi_block c = sqi_block c0 := by rw [hcB, hc0B]
      obtain ⟨h4, h5, h6⟩ := (sqi_block_eq_iff (hB c hc) (hB c0 hc0)).mp hbb
      refine @fin3_cases (fun i => sqi_comp c i = sqi_comp c0 i) ?_ ?_ ?_ ch
      · show sqi_comp c 0 = sqi_comp c0 0
        rw [sqi_comp_zero, sqi_comp_zero, h4]
      · show sqi_comp c 1 = sqi_comp c0 1
        rw [sqi_comp_one, sqi_comp_one, h5]
      · show sqi_comp c 2 = sqi_comp c0 2
        rw [sqi_comp_two, sqi_comp_two, h6]
    have hpoint : ∀ c ∈ l, (sqi_block c == B) =
        ((sqi_block c == B) && (sqi_comp c ch == sqi_comp c0 ch)) := by
      intro c hc
      by_cases hcB : sqi_block c = B
      · have h7 : sqi_comp c ch = sqi_comp c0 ch := hcomp c hc hcB
        simp [hcB, h7]
      · simp [hcB]
    have hstab := @sqi_sort_group_stable l ch (sqi_comp c0 ch) hv
    calc (sqi_sort_group l ch).filter (fun c => sqi_block c == B)
        = (sqi_sort_group l ch).filter
            (fun c => (sqi_block c == B) && (sqi_comp c ch == sqi_comp c0 ch)) :=
          List.filter_congr (fun c hc => hpoint c (mem_sqi_sort_group hc))
      _ = ((sqi_sort_group l ch).filter
            (fun c => sqi_comp c ch == sqi_comp c0 ch)).filter
            (fun c => sqi_block c == B) := (List.filter_filter _ _).symm
      _ = (l.filter (fun c => sqi_comp c ch == sqi_comp c0 ch)).filter
            (fun c => sqi_block c == B) := by rw [hstab]
      _ = l.filter (fun c => (sqi_block c == B) && (sqi_comp c ch == sqi_comp c0 ch)) :=
          List.filter_filter _ _
      _ = l.filter (fun c => sqi_block c == B) :=
          (List.filter_congr (fun c hc => hpoint c hc)).symm
  · push_neg at hex
    have h1 : l.filter (fun c => sqi_block c == B) = [] := by
      rw [List.filter_eq_nil_iff]
      intro c hc
      simp [hex c hc]
    have h2 : (sqi_sort_group l ch).filter (fun c => sqi_block c == B) = [] := by
      rw [List.filter_eq_nil_iff]
      intro c hc
      simp [hex c (mem_sqi_sort_group hc)]
    rw [h1, h2]

/-- The three passes of sqi_dupenuke keep the relative order of the colors
sharing any fixed packed block. -/
theorem sqi_dupesort_stable_block {l : List sqi_colorstruc}
    (hB : ∀ c ∈ l, ByteColor c) (B : Nat) :
    (sqi_dupesort l).filter (fun c => sqi_block c == B) =
      l.filter (fun c => sqi_block c == B) := by
  have h0 : ∀ c ∈ sqi_sort_group l 0, ByteColor c :=
    fun c hc => hB c (mem_sqi_sort_group hc)
  have h1 : ∀ c ∈ sqi_sort_group (sqi_sort_group l 0) 1, ByteColor c :=
    fun c hc => h0 c (mem_sqi_sort_group hc)
  rw [sqi_dupesort, sqi_sort_group_stable_block h1 B, sqi_sort_group_stable_block h0 B,
    sqi_sort_group_stable_block hB B]

/-- Over the sorted list, every color that sqi_dupescan keeps active is the
FIRST color of its packed-block run: the filter of the whole scanned list
by its block starts with it. -/
theorem sqi_dupescan_first :
    ∀ (l : List sqi_colorstruc) (c0 : sqi_colorstruc),
      (∀ x ∈ l, ByteColor x) → ByteColor c0 →
      l.Pairwise (fun x y => lexKey x ≤ lexKey y) →
      (∀ x ∈ l, lexKey c0 ≤ lexKey x) →
      ∀ a ∈ c0 :: (sqi_dupescan c0.coloridx (sqi_block c0) l).1,
        ∃ t, (c0 :: l).filter (fun c => sqi_block c == sqi_block a) = a :: t := by
  intro l
  induction l with
  | nil =>
    intro c0 _ _ _ _ a ha
    have ha2 : a = c0 := by simpa [sqi_dupescan] using ha
    subst ha2
    refine ⟨[], ?_⟩
    simp [List.filter_cons]
  | cons c rest ih =>
    intro c0 hBl hBc0 hsort hle a ha
    have hBc : ByteColor c := hBl c (List.mem_cons_self _ _)
    have hBrest : ∀ x ∈ rest, ByteColor x := fun x hx => hBl x (List.mem_cons_of_mem _ hx)
    have hsort2 : rest.Pairwise (fun x y => lexKey x ≤ lexKey y) :=
      (List.pairwise_cons.mp hsort).2
    have hcle : ∀ x ∈ rest, lexKey c ≤ lexKey x := (List.pairwise_cons.mp hsort).1
    by_cases hdup : sqi_block c = sqi_block c0
    · have hstep : (sqi_dupescan c0.coloridx (sqi_block c0) (c :: rest)).1 =
          (sqi_dupescan c0.coloridx (sqi_block c0) rest).1 := by
        rw [sqi_dupescan, if_pos hdup]
      rw [hstep] at ha
      have hle2 : ∀ x ∈ rest, lexKey c0 ≤ lexKey x :=
        fun x hx => hle x (List.mem_cons_of_mem _ hx)
      obtain ⟨t, ht⟩ := ih c0 hBrest hBc0 hsort2 hle2 a ha
      by_cases hbc0a : sqi_block c0 = sqi_block a
      · have hc0a : c0 = a ∧ (rest.filter (fun x => sqi_block x == sqi_block a)) = t := by
          rw [List.filter_cons, if_pos (by simp [hbc0a])] at ht
          exact ⟨(List.cons.injEq _ _ _ _ ▸ ht).1, (List.cons.injEq _ _ _ _ ▸ ht).2⟩
        obtain ⟨hc0a1, _⟩ := hc0a
        subst hc0a1
        refine ⟨(c :: rest).filter (fun x => sqi_block x == sqi_block c0), ?_⟩
        rw [List.filter_cons, if_pos (by simp)]
      · have hbca : sqi_block c ≠ sqi_block a := by
          rw [hdup]
          exact hbc0a
        refine ⟨t, ?_⟩
        rw [List.filter_cons, if_neg (by simp [hbc0a]),
          List.filter_cons, if_neg (by simp [hbca])]
        rw [List.filter_cons, if_neg (by simp [hbc0a])] at ht
        exact ht
    · have hstep : (sqi_dupescan c0.coloridx (sqi_block c0) (c :: rest)).1 =
          c :: (sqi_dupescan c.coloridx (sqi_block c) rest).1 := by
        rw [sqi_dupescan, if_neg hdup]
      rw [hstep] at ha
      rcases List.mem_cons.mp ha with hac0 | hact
      · subst hac0
        refine ⟨(c :: rest).filter (fun x => sqi_block x == sqi_block a), ?_⟩
        rw [List.filter_cons, if_pos (by simp)]
      · obtain ⟨t, ht⟩ := ih c hBrest hBc hsort2 hcle a hact
        have hpair : sqi_dupescan c.coloridx (sqi_block c) rest =
            ((sqi_dupescan c.coloridx (sqi_block c) rest).1,
             (sqi_dupescan c.coloridx (sqi_block c) rest).2) := Prod.mk.eta.symm
        obtain ⟨i1, _, _, _, _⟩ :=
          sqi_dupescan_spec rest c _ _ hBrest hBc hsort2 hcle hpair
        have hmemA : a ∈ c :: rest := by
          rcases List.mem_cons.mp hact with h | h
          · exact h ▸ List.mem_cons_self _ _
          · exact List.mem_cons_of_mem _ (i1 a h)
        have hBa : ByteColor a := by
          rcases List.mem_cons.mp hmemA with h | h
          · exact h ▸ hBc
          · exact hBrest a h
        have hlca : lexKey c ≤ lexKey a := by
          rcases List.mem_cons.mp hmemA with h | h
          · exact h ▸ le_refl _
          · exact hcle a h
        have hbc0a : sqi_block c0 ≠ sqi_block a := by
          intro hcon
          have hl1 : lexKey c0 = lexKey a := (lexKey_eq_iff_block hBc0 hBa).mpr hcon
          have hl2 : lexKey c0 ≤ lexKey c := hle c (List.mem_cons_self _ _)
          have hl3 : lexKey c0 = lexKey c := by omega
          exact hdup ((lexKey_eq_iff_block hBc0 hBc).mp hl3).symm
        refine ⟨t, ?_⟩
        rw [List.filter_cons, if_neg (by simp [hbc0a])]
        exact ht

/-- Each active color left by the deduplication stage is the
earliest-registered (first-seen) occurrence of its packed color value. -/
theorem act_first_seen (cols : List RGB) (hne : cols ≠ [])
    {act : List sqi_colorstruc} {zer : List (Nat × Nat)}
    (heq : sq_stage_dn cols = (act, zer)) :
    ∀ a ∈ act, ∀ x ∈ sq_register cols, sqi_block x = sqi_block a →
      a.coloridx ≤ x.coloridx := by
  have hB : ∀ x ∈ sq_register cols, ByteColor x := fun x hx => sq_register_bytes hx
  have hne2 : sq_register cols ≠ [] := by
    intro h
    have hl := sq_register_length cols
    rw [h] at hl
    simp at hl
    exact hne (List.length_eq_zero.mp hl.symm)
  rw [sq_stage_dn] at heq
  have hperm : (sqi_dupesort (sq_register cols)).Perm (sq_register cols) :=
    sqi_dupesort_perm hB
  have hsorted := sqi_dupesort_sorted hB
  rcases hs : sqi_dupesort (sq_register cols) with _ | ⟨c, rest⟩
  · rw [hs] at hperm
    exact absurd hperm.symm.eq_nil hne2
  · rw [hs] at hperm hsorted
    have heq2 : (c :: (sqi_dupescan c.coloridx (sqi_block c) rest).1,
        (sqi_dupescan c.coloridx (sqi_block c) rest).2) = (act, zer) := by
      rw [← heq, sqi_dupenuke, hs]
    rcases hp : sqi_dupescan c.coloridx (sqi_block c) rest with ⟨act1, zer1⟩
    rw [hp] at heq2
    cases heq2
    intro a ha x hx hblock
    have hBc : ByteColor c := hB c (hperm.mem_iff.mp (List.mem_cons_self _ _))
    have hBrest : ∀ y ∈ rest, ByteColor y :=
      fun y hy => hB y (hperm.mem_iff.mp (List.mem_cons_of_mem _ hy))
    have ha2 : a ∈ c :: (sqi_dupescan c.coloridx (sqi_block c) rest).1 := by
      rw [hp]
      exact ha
    obtain ⟨t, ht⟩ := sqi_dupescan_first rest c hBrest hBc
      (List.pairwise_cons.mp hsorted).2 (List.pairwise_cons.mp hsorted).1 a ha2
    have ht2 : (sq_register cols).filter (fun y => sqi_block y == sqi_block a) = a :: t := by
      rw [← sqi_dupesort_stable_block hB (sqi_block a), hs]
      exact ht
    have hpw : (sq_register cols).Pairwise (fun u v => u.coloridx < v.coloridx) := by
      have hidx := sq_register_idx cols
      have h2 : ((sq_register cols).map sqi_colorstruc.coloridx).Pairwise (· < ·) := by
        rw [hidx]
        exact List.pairwise_lt_range _
      exact List.pairwise_map.mp h2
    have hpwf := (hpw.filter (fun y => sqi_block y == sqi_block a))
    rw [ht2] at hpwf
    have hxf : x ∈ (sq_register cols).filter (fun y => sqi_block y == sqi_block a) :=
      List.mem_filter.mpr ⟨hx, by simp [hblock]⟩
    rw [ht2] at hxf
    rcases List.mem_cons.mp hxf with h | h
    · rw [h]
    · have := (List.pairwise_cons.mp hpwf).1 x h
      omega

/-- A non-empty input of pairwise channel-distinct colors that fits the
requested width keeps its full distinct count as the achieved width, while
every index-map byte stays below 256: slot 256 is unreachable. -/
theorem fits_truncation (cols : List RGB) (W : Nat) (hne : cols ≠ []) (hW : 1 ≤ W)
    (hdis : distinctColorCount cols = cols.length) (hfit : cols.length ≤ W) :
    ∃ r, sq_reduce cols W = some r ∧ r.width = cols.length ∧
      ∀ i, r.idxmap.getD i 0 ≠ 256 := by
  have heq : sq_stage_dn cols = ((sq_stage_dn cols).1, (sq_stage_dn cols).2) := rfl
  obtain ⟨d1, d2, d3, d4, d5, d6, d7, d8⟩ := sq_stage_dn_facts cols hne heq
  have hDeq : (sq_stage_dn cols).1.length = distinctColorCount cols :=
    act_length_distinct cols hne heq
  have hfits : cols.length - (sq_stage_dn cols).2.length ≤ W := by omega
  refine ⟨_, sq_reduce_fits_eq cols W hne hW hfits, ?_, ?_⟩
  · show cols.length - (sq_stage_dn cols).2.length = cols.length
    omega
  · intro i
    have hb := getD_lt_of_entries _ (sq_fits_idx_entries (sq_stage_dn cols).1
      (sq_stage_dn cols).2 cols.length (cols.length - (sq_stage_dn cols).2.length)) i
    omega

set_option maxRecDepth 10000 in
/-- The 257 colors of C8ex pack to the 257 distinct blocks 0..256: its
registered block sequence is exactly List.range 257. -/
theorem C8ex_facts : C8ex.length = 257 ∧ distinctColorCount C8ex = 257 := by
  have hlen : C8ex.length = 257 := by
    rw [C8ex, List.length_map, List.length_range]
  have hmap : (sq_register C8ex).map sqi_block = List.range 257 := by
    apply List.ext_getElem
    · rw [List.length_map, sq_register_length, hlen, List.length_range]
    · intro i h1 h2
      have hi : i < 257 := by
        rw [List.length_map, sq_register_length, hlen] at h1
        exact h1
      simp only [sq_register, C8ex, List.getElem_map, List.getElem_enum,
        List.getElem_range, sqi_block]
      omega
  have hnodup : ((sq_register C8ex).map sqi_block).Nodup := by
    rw [hmap]
    exact List.nodup_range 257
  refine ⟨hlen, ?_⟩
  rw [distinctColorCount, List.dedup_eq_self.mpr hnodup, hmap, List.length_range]

/-! ## The claims -/

/-- C3 (amended): given a positive channel sum, sqi_cut_group fails
exactly on a single-color group; on a group of two or more colors it
splits the list into two non-empty halves, and the kept prefix holds
the colors strictly BEFORE the one that pushed the running total past the
median (the crossing color starts the remainder), except that a crossing
at the very first color keeps just that color. -/
theorem C3_cut_group_amended (gl : List sqi_colorstruc) (component : Fin 3)
    (hsum : 1 ≤ chanSum gl component) :
    (sqi_cut_group gl component (chanSum gl component) = none ↔ gl.length = 1) ∧
    (2 ≤ gl.length → ∃ front back,
      sqi_cut_group gl component (chanSum gl component) = some (front, back) ∧
      front ++ back = gl ∧ front ≠ [] ∧ back ≠ [] ∧
      front.length = max (crossIdx component (chanSum gl component / 2) 0 gl) 1) := by
  have hne : gl ≠ [] := by
    intro h
    rw [h, chanSum_nil] at hsum
    omega
  have h0 : gl.length ≠ 0 := fun h => hne (List.length_eq_zero.mp h)
  have hspec := sqi_cut_group_spec gl component hsum
  constructor
  · constructor
    · intro hnone
      by_contra hlen1
      have h2 : 2 ≤ gl.length := by omega
      obtain ⟨heqs, _⟩ := hspec.2 h2
      rw [heqs] at hnone
      exact Option.noConfusion hnone
    · intro h1
      exact hspec.1 h1
  · intro h2
    obtain ⟨heqs, hlt⟩ := hspec.2 h2
    set m := max (crossIdx component (chanSum gl component / 2) 0 gl) 1 with hm
    have hm1 : 1 ≤ m := le_max_right _ _
    refine ⟨_, _, heqs, List.take_append_drop _ _, ?_, ?_, ?_⟩
    · intro h
      have hl := congrArg List.length h
      rw [List.length_take] at hl
      simp only [List.length_nil] at hl
      omega
    · intro h
      have hl := congrArg List.length h
      rw [List.length_drop] at hl
      simp only [List.length_nil] at hl
      omega
    · rw [List.length_take]
      omega

/-- C3 witness: a two-color group with channel values 1 and 2 is cut into
two non-empty halves of one color each. -/
theorem C3_cut_group_amended_witness :
    1 ≤ chanSum [⟨0, 1, 0, 0⟩, ⟨1, 2, 0, 0⟩] (0 : Fin 3) ∧
    ¬ sqi_cut_group [⟨0, 1, 0, 0⟩, ⟨1, 2, 0, 0⟩] 0
        (chanSum [⟨0, 1, 0, 0⟩, ⟨1, 2, 0, 0⟩] 0) = none := by
  have h := C3_cut_group_amended [⟨0, 1, 0, 0⟩, ⟨1, 2, 0, 0⟩] 0 (by decide)
  refine ⟨by decide, fun hn => ?_⟩
  have := h.1.mp hn
  simp at this

/-- C3 counterexample: on the sorted two-color group with channel values
1 and 100 (sum 101, median 50) the crossing color is the second one; the
code keeps only the first color and returns the crossing color as the
remainder, while the claimed semantics (prefix inclusive of the crossing
color, failure when no remainder exists) would fail with null. -/
theorem C3_counterexample :
    sqi_cut_group [⟨0, 1, 0, 0⟩, ⟨1, 100, 0, 0⟩] 0 101 =
      some ([⟨0, 1, 0, 0⟩], [⟨1, 100, 0, 0⟩]) ∧
    sqi_cut_group_claimed [⟨0, 1, 0, 0⟩, ⟨1, 100, 0, 0⟩] 0 101 = none := by
  constructor <;> rfl

/-- C5 (amended): sqi_dupenuke's three stable passes run in the order red
(component 0), then green (component 1), then blue (component 2) - not
red, blue, green - leaving the working set sorted by the lexicographic
key (blue, green, red), which makes channel-identical colors adjacent. -/
theorem C5_dupesort_amended (l : List sqi_colorstruc)
    (hB : ∀ c ∈ l, ByteColor c) :
    sqi_dupesort l = sqi_sort_group (sqi_sort_group (sqi_sort_group l 0) 1) 2 ∧
    (sqi_dupesort l).Perm l ∧
    (sqi_dupesort l).Pairwise (fun x y => lexKey x ≤ lexKey y) :=
  ⟨rfl, sqi_dupesort_perm hB, sqi_dupesort_sorted hB⟩

/-- C5 witness: a two-color list is permuted into lexKey order by the
duplicate-collapse sort. -/
theorem C5_dupesort_amended_witness :
    (∀ c ∈ ([⟨0, 3, 2, 1⟩] : List sqi_colorstruc), ByteColor c) ∧
    (sqi_dupesort [⟨0, 3, 2, 1⟩] =
        sqi_sort_group (sqi_sort_group (sqi_sort_group [⟨0, 3, 2, 1⟩] 0) 1) 2 ∧
      (sqi_dupesort [⟨0, 3, 2, 1⟩]).Perm [⟨0, 3, 2, 1⟩] ∧
      (sqi_dupesort [⟨0, 3, 2, 1⟩]).Pairwise (fun x y => lexKey x ≤ lexKey y)) := by
  have hB : ∀ c ∈ ([⟨0, 3, 2, 1⟩] : List sqi_colorstruc), ByteColor c := by
    intro c hc
    rw [List.mem_singleton.mp hc]
    exact ⟨by decide, by decide, by decide⟩
  exact ⟨hB, C5_dupesort_amended _ hB⟩

set_option maxRecDepth 10000 in
/-- C5 counterexample: on two colors that tie in red and swap green
against blue, the code's pass order red, green, blue and the claimed pass
order red, blue, green produce different final orders. -/
theorem C5_counterexample :
    sqi_dupesort [⟨0, 0, 0, 1⟩, ⟨1, 0, 1, 0⟩] ≠
      sqi_dupesort_claimed [⟨0, 0, 0, 1⟩, ⟨1, 0, 1, 0⟩] := by
  decide

/-- C6: on a non-empty group of byte-valued colors, sqi_sort_group returns
a permutation of the input ordered ascending by the chosen channel, and
the sort is stable: the colors carrying any fixed channel value appear in
their original relative order (filter invariance). -/
theorem C6_sort_spec (l : List sqi_colorstruc) (ch : Fin 3) (hne : l ≠ [])
    (hB : ∀ c ∈ l, sqi_comp c ch < 256) :
    (sqi_sort_group l ch).Perm l ∧
    (sqi_sort_group l ch).Pairwise (fun x y => sqi_comp x ch ≤ sqi_comp y ch) ∧
    ∀ v, v < 256 → (sqi_sort_group l ch).filter (fun c => sqi_comp c ch == v) =
      l.filter (fun c => sqi_comp c ch == v) :=
  ⟨sqi_sort_group_perm hB, sqi_sort_group_sorted l ch,
    fun v hv => sqi_sort_group_stable v hv⟩

/-- C6 witness: a two-color group is sorted into ascending red order. -/
theorem C6_sort_spec_witness :
    (([⟨0, 2, 0, 0⟩, ⟨1, 1, 0, 0⟩] : List sqi_colorstruc) ≠ [] ∧
      ∀ c ∈ ([⟨0, 2, 0, 0⟩, ⟨1, 1, 0, 0⟩] : List sqi_colorstruc),
        sqi_comp c 0 < 256) ∧
    ((sqi_sort_group [⟨0, 2, 0, 0⟩, ⟨1, 1, 0, 0⟩] 0).Perm
        [⟨0, 2, 0, 0⟩, ⟨1, 1, 0, 0⟩] ∧
      (sqi_sort_group [⟨0, 2, 0, 0⟩, ⟨1, 1, 0, 0⟩] 0).Pairwise
        (fun x y => sqi_comp x 0 ≤ sqi_comp y 0) ∧
      ∀ v, v < 256 →
        (sqi_sort_group [⟨0, 2, 0, 0⟩, ⟨1, 1, 0, 0⟩] 0).filter
            (fun c => sqi_comp c 0 == v) =
          List.filter (fun c => sqi_comp c 0 == v) [⟨0, 2, 0, 0⟩, ⟨1, 1, 0, 0⟩]) :=
  ⟨⟨by decide, by decide⟩, C6_sort_spec _ 0 (by decide) (by decide)⟩

/-- C7: on a non-empty group, sqi_examine_group returns a channel, that
channel's spread and that channel's sum, the returned spread dominates
every channel's spread, and every channel strictly before the returned one
has a strictly smaller spread: a later channel is selected only when its
spread is strictly greater, so ties keep the earlier channel in the order
red, green, blue. -/
theorem C7_examine_spec (l : List sqi_colorstruc) (hne : l ≠ []) :
    (sqi_examine_group l).2.1 = chanSpread l (sqi_examine_group l).1 ∧
    (sqi_examine_group l).2.2 = chanSum l (sqi_examine_group l).1 ∧
    (∀ ch : Fin 3, chanSpread l ch ≤ (sqi_examine_group l).2.1) ∧
    (∀ ch : Fin 3, ch < (sqi_examine_group l).1 →
      chanSpread l ch < (sqi_examine_group l).2.1) := by
  cases l with
  | nil => exact absurd rfl hne
  | cons c rest => exact sqi_examine_group_spec c rest

/-- C7 witness: the singleton group is examined with all spreads zero and
the red channel selected. -/
theorem C7_examine_spec_witness :
    (([⟨0, 1, 2, 3⟩] : List sqi_colorstruc) ≠ []) ∧
    ((sqi_examine_group [⟨0, 1, 2, 3⟩]).2.1 =
        chanSpread [⟨0, 1, 2, 3⟩] (sqi_examine_group [⟨0, 1, 2, 3⟩]).1 ∧
      (sqi_examine_group [⟨0, 1, 2, 3⟩]).2.2 =
        chanSum [⟨0, 1, 2, 3⟩] (sqi_examine_group [⟨0, 1, 2, 3⟩]).1 ∧
      (∀ ch : Fin 3, chanSpread [⟨0, 1, 2, 3⟩] ch ≤
        (sqi_examine_group [⟨0, 1, 2, 3⟩]).2.1) ∧
      (∀ ch : Fin 3, ch < (sqi_examine_group [⟨0, 1, 2, 3⟩]).1 →
        chanSpread [⟨0, 1, 2, 3⟩] ch < (sqi_examine_group [⟨0, 1, 2, 3⟩]).2.1)) :=
  ⟨by decide, C7_examine_spec _ (by decide)⟩

/-- C9: the split loop is total and terminates within the requested width
W: running it with any fuel of at least W split iterations gives the same
group list as running it with exactly W, and the group count never
exceeds W. -/
theorem C9_split_loop_terminates (cols : List RGB) (W f : Nat) (hW : 1 ≤ W)
    (hf : W ≤ f) :
    sq_split_loop W f [mkGroup (sq_stage_dn cols).1 none] =
      sq_split_loop W W [mkGroup (sq_stage_dn cols).1 none] ∧
    (sq_split_loop W f [mkGroup (sq_stage_dn cols).1 none]).1.length ≤ W := by
  constructor
  · exact sq_split_loop_fuel W f W _
      (by simp only [List.length_cons, List.length_nil]; omega)
      (by simp only [List.length_cons, List.length_nil]; omega)
  · exact sq_split_loop_length_le W f _
      (by simp only [List.length_cons, List.length_nil]; omega)

/-- C1 (amended): for every non-empty input and requested width W of at
least 1, sq_reduce succeeds with an achieved width of at most W, and when
the distinct color count D fits the request (D at most W, the Fits path)
the achieved width equals min(D, W) = D.  In the split path the
SQI_RE_SORT pass can shrink the width below min(D, W) when distinct
groups synthesize identical averaged palette entries. -/
theorem C1_width_amended (cols : List RGB) (W : Nat) (hne : cols ≠ []) (hW : 1 ≤ W) :
    ∃ r, sq_reduce cols W = some r ∧ r.width ≤ W ∧
      (distinctColorCount cols ≤ W → r.width = min (distinctColorCount cols) W) := by
  have heq : sq_stage_dn cols = ((sq_stage_dn cols).1, (sq_stage_dn cols).2) := rfl
  obtain ⟨d1, d2, d3, d4, d5, d6, d7, d8⟩ := sq_stage_dn_facts cols hne heq
  have hDeq : (sq_stage_dn cols).1.length = distinctColorCount cols :=
    act_length_distinct cols hne heq
  by_cases hfits : cols.length - (sq_stage_dn cols).2.length ≤ W
  · refine ⟨_, sq_reduce_fits_eq cols W hne hW hfits, ?_, ?_⟩
    · show cols.length - (sq_stage_dn cols).2.length ≤ W
      exact hfits
    · intro _
      show cols.length - (sq_stage_dn cols).2.length = min (distinctColorCount cols) W
      omega
  · obtain ⟨hplen, hpne, hwid1, hwid2, hred⟩ := innerFits_facts cols W hne hW (by omega)
    refine ⟨_, hred, hwid2, ?_⟩
    intro hDW
    exact absurd hDW (by omega)

/-- C1 witness: a single color at width 1 is reduced to the full-width
palette of its one distinct color. -/
theorem C1_width_amended_witness :
    (([((1 : Nat), (2 : Nat), (3 : Nat))] : List RGB) ≠ [] ∧ 1 ≤ 1) ∧
    ∃ r, sq_reduce [(1, 2, 3)] 1 = some r ∧ r.width ≤ 1 ∧
      (distinctColorCount [(1, 2, 3)] ≤ 1 →
        r.width = min (distinctColorCount [(1, 2, 3)]) 1) :=
  ⟨⟨by decide, le_refl 1⟩, C1_width_amended [(1, 2, 3)] 1 (by decide) (le_refl 1)⟩

set_option maxRecDepth 10000 in
/-- C1 counterexample: C1ex has five distinct colors, yet at requested
width 2 the split path synthesizes two identical averaged palette entries
and the SQI_RE_SORT pass collapses them, so sq_reduce returns achieved
width 1 instead of min(5, 2) = 2. -/
theorem C1_counterexample :
    (sq_reduce C1ex 2).map SQResult.width = some 1 ∧
    min (distinctColorCount C1ex) 2 = 2 := by
  constructor
  · decide
  · decide

set_option maxRecDepth 10000 in
/-- C2 bug evaluation: on C2ex at width 2 the split groups hold the
original indices {0, 1} and {2, 3}, yet after the palette-build loop and
the zero resolution the index-map byte of original index 3 - a member of
group 1 - still holds 0: only each group's first member ever receives its
slot number. -/
theorem C2_bug_eval :
    ((sq_stage_groups C2ex 2).map (fun g => g.cols.map sqi_colorstruc.coloridx)) =
      [[0, 1], [2, 3]] ∧
    sq_stage_idx C2ex 2 = [0, 0, 1, 0] ∧
    (sq_stage_idx C2ex 2).getD 3 0 ≠ 1 := by
  refine ⟨by decide, by decide, by decide⟩

/-- C4: registered colors that agree in all three channels receive equal
bytes in the final index map, and every collapsed duplicate's
back-reference names the FIRST-SEEN surviving representative of its color
value: an active color carrying the duplicate's packed block whose
original index is the least among all registered occurrences of that
block - never another duplicate. -/
theorem C4_duplicate_invariant (cols : List RGB) (W : Nat) (hne : cols ≠ [])
    (hW : 1 ≤ W) {act : List sqi_colorstruc} {zer : List (Nat × Nat)}
    (heq : sq_stage_dn cols = (act, zer)) (i j : Nat)
    (hi : i < cols.length) (hj : j < cols.length)
    (hsame : sqi_block ((sq_register cols).getD i dummyColor) =
      sqi_block ((sq_register cols).getD j dummyColor)) :
    (∃ r, sq_reduce cols W = some r ∧ r.idxmap.getD i 0 = r.idxmap.getD j 0) ∧
    ∀ q ∈ zer,
      (∃ ca ∈ act, ca.coloridx = q.2 ∧
        sqi_block ca = sqi_block ((sq_register cols).getD q.1 dummyColor)) ∧
      (∀ k, k < cols.length →
        sqi_block ((sq_register cols).getD k dummyColor) =
          sqi_block ((sq_register cols).getD q.1 dummyColor) → q.2 ≤ k) ∧
      q.2 ∉ zer.map Prod.fst := by
  obtain ⟨d1, d2, d3, d4, d5, d6, d7, d8⟩ := sq_stage_dn_facts cols hne heq
  obtain ⟨n1, n2, n3, n4, n5, n6⟩ := sq_stage_dn_idx_facts cols hne heq
  constructor
  · by_cases hfits : cols.length - (sq_stage_dn cols).2.length ≤ W
    · refine ⟨_, sq_reduce_fits_eq cols W hne hW hfits, ?_⟩
      show (sq_resolve_zeros (sq_stage_dn cols).2 _).getD i 0 =
        (sq_resolve_zeros (sq_stage_dn cols).2 _).getD j 0
      rw [heq]
      refine resolve_same_block cols hne heq hi hj hsame _ ?_
      rw [foldl_set_length (fun c : sqi_colorstruc => c.coloridx) (fun k => k % 256)]
      exact List.length_replicate _ _
    · obtain ⟨hplen, hpne, hwid1, hwid2, hred⟩ := innerFits_facts cols W hne hW (by omega)
      refine ⟨_, hred, ?_⟩
      have hleni : i < (sq_stage_idx cols W).length := by
        rw [sq_stage_idx_length]
        exact hi
      have hlenj : j < (sq_stage_idx cols W).length := by
        rw [sq_stage_idx_length]
        exact hj
      show ((sq_stage_idx cols W).map
          (fun v => (innerFits cols W).idxmap.getD v 0)).getD i 0 =
        ((sq_stage_idx cols W).map
          (fun v => (innerFits cols W).idxmap.getD v 0)).getD j 0
      rw [getD_map_lt _ _ _ hleni, getD_map_lt _ _ _ hlenj]
      have hpre : (sq_stage_idx cols W).getD i 0 = (sq_stage_idx cols W).getD j 0 := by
        rw [sq_stage_idx, heq]
        refine resolve_same_block cols hne heq hi hj hsame _ ?_
        rw [sq_synth_idxmap, foldl_set_length
          (fun gr : SplitGroup => (gr.cols.headD dummyColor).coloridx) (fun k => k % 256)]
        exact List.length_replicate _ _
      rw [hpre]
  · intro q hq
    obtain ⟨cz, hcz, hcz1, ca, hca, hca2, hca3⟩ := d4 q hq
    obtain ⟨hczlt, hczeq⟩ := sq_register_unique hcz
    have hcz4 : cz = (sq_register cols).getD q.1 dummyColor := by
      rw [hczeq, hcz1]
    refine ⟨⟨ca, hca, hca2, by rw [← hcz4]; exact hca3⟩, ?_, n6 q hq⟩
    intro k hk hkblock
    obtain ⟨hk1, hk2⟩ := sq_register_getD cols k hk
    have hfs := act_first_seen cols hne heq ca hca
      ((sq_register cols).getD k dummyColor) hk2
      (by rw [hkblock, ← hcz4, ← hca3])
    rw [hk1, hca2] at hfs
    exact hfs

set_option maxRecDepth 10000 in
/-- C4 witness: two registrations of the same color collapse to one active
color whose back-reference names the first-seen survivor of that color
value, and both original indices get the same index map byte. -/
theorem C4_duplicate_invariant_witness :
    (([((1 : Nat), (2 : Nat), (3 : Nat)), ((1 : Nat), (2 : Nat), (3 : Nat))] : List RGB) ≠ [] ∧
      sq_stage_dn [(1, 2, 3), (1, 2, 3)] = ([⟨0, 1, 2, 3⟩], [(1, 0)]) ∧
      sqi_block ((sq_register [(1, 2, 3), (1, 2, 3)]).getD 0 dummyColor) =
        sqi_block ((sq_register [(1, 2, 3), (1, 2, 3)]).getD 1 dummyColor)) ∧
    ((∃ r, sq_reduce [(1, 2, 3), (1, 2, 3)] 1 = some r ∧
        r.idxmap.getD 0 0 = r.idxmap.getD 1 0) ∧
      ∀ q ∈ [((1 : Nat), (0 : Nat))],
        (∃ ca ∈ [(⟨0, 1, 2, 3⟩ : sqi_colorstruc)], ca.coloridx = q.2 ∧
          sqi_block ca =
            sqi_block ((sq_register [(1, 2, 3), (1, 2, 3)]).getD q.1 dummyColor)) ∧
        (∀ k, k < ([((1 : Nat), (2 : Nat), (3 : Nat)),
            ((1 : Nat), (2 : Nat), (3 : Nat))] : List RGB).length →
          sqi_block ((sq_register [(1, 2, 3), (1, 2, 3)]).getD k dummyColor) =
            sqi_block ((sq_register [(1, 2, 3), (1, 2, 3)]).getD q.1 dummyColor) →
          q.2 ≤ k) ∧
        q.2 ∉ [((1 : Nat), (0 : Nat))].map Prod.fst) := by
  have heq : sq_stage_dn [(1, 2, 3), (1, 2, 3)] = ([⟨0, 1, 2, 3⟩], [(1, 0)]) := by decide
  exact ⟨⟨by decide, heq, by decide⟩,
    C4_duplicate_invariant [(1, 2, 3), (1, 2, 3)] 1 (by decide) (le_refl 1) heq 0 1
      (by decide) (by decide) (by decide)⟩

/-- C8 (amended): for every non-empty input and requested width W with
1 at most W at most 256, every palette slot below the achieved width has
at least one original index mapped to it.  (For W above 256 the claim
fails: palette indices are stored into unsigned char bytes modulo 256.) -/
theorem C8_coverage_amended (cols : List RGB) (W : Nat) (hne : cols ≠ [])
    (hW : 1 ≤ W) (h256 : W ≤ 256) :
    ∃ r, sq_reduce cols W = some r ∧
      ∀ s, s < r.width → ∃ i, i < cols.length ∧ r.idxmap.getD i 0 = s := by
  have heq : sq_stage_dn cols = ((sq_stage_dn cols).1, (sq_stage_dn cols).2) := rfl
  obtain ⟨d1, d2, d3, d4, d5, d6, d7, d8⟩ := sq_stage_dn_facts cols hne heq
  by_cases hfits : cols.length - (sq_stage_dn cols).2.length ≤ W
  · refine ⟨_, sq_reduce_fits_eq cols W hne hW hfits, ?_⟩
    intro s hs
    have hsw : s < cols.length - (sq_stage_dn cols).2.length := hs
    have hs2 : s < (sq_stage_dn cols).1.length := by omega
    exact sq_fits_cover cols hne heq (by omega) s hs2
  · obtain ⟨hplen, hpne, hwid1, hwid2, hred⟩ := innerFits_facts cols W hne hW (by omega)
    refine ⟨_, hred, ?_⟩
    intro s hs
    have hsw : s < (innerFits cols W).width := hs
    have hs1 : s < (sq_stage_dn (sq_synth_pal cols W)).1.length := by omega
    have heq1 : sq_stage_dn (sq_synth_pal cols W) =
        ((sq_stage_dn (sq_synth_pal cols W)).1, (sq_stage_dn (sq_synth_pal cols W)).2) := rfl
    have h256a : (sq_stage_dn (sq_synth_pal cols W)).1.length ≤ 256 := by omega
    obtain ⟨v, hv, hvmap⟩ := sq_fits_cover (sq_synth_pal cols W) hpne heq1 h256a s hs1
    have hvW : v < W := by omega
    have hD : W < (sq_stage_dn cols).1.length := by omega
    obtain ⟨i, hi, himap⟩ := sq_stage_idx_cover cols W hne hW heq hD h256 v hvW
    refine ⟨i, hi, ?_⟩
    have hleni : i < (sq_stage_idx cols W).length := by
      rw [sq_stage_idx_length]
      exact hi
    show ((sq_stage_idx cols W).map
      (fun v => (innerFits cols W).idxmap.getD v 0)).getD i 0 = s
    have hfin := getD_map_lt (fun v => (innerFits cols W).idxmap.getD v 0)
      (sq_stage_idx cols W) i hleni 0
    rw [hfin, himap]
    exact hvmap

/-- C8 witness: a single color at width 1 covers the single palette
slot. -/
theorem C8_coverage_amended_witness :
    (([((1 : Nat), (2 : Nat), (3 : Nat))] : List RGB) ≠ [] ∧ 1 ≤ 1 ∧ 1 ≤ 256) ∧
    ∃ r, sq_reduce [(1, 2, 3)] 1 = some r ∧
      ∀ s, s < r.width →
        ∃ i, i < ([((1 : Nat), (2 : Nat), (3 : Nat))] : List RGB).length ∧
          r.idxmap.getD i 0 = s :=
  ⟨⟨by decide, le_refl 1, by omega⟩,
    C8_coverage_amended [(1, 2, 3)] 1 (by decide) (le_refl 1) (by omega)⟩

/-- C10: when the distinct color count strictly exceeds the requested
width, the split loop's break branch is unreachable (the loop ends with
exactly W groups and no break), and every selected maximal-spread group
in a running state has at least two members, a strictly positive recorded
channel sum, and a cut that never returns null. -/
theorem C10_no_null_cut (cols : List RGB) (W : Nat) (hne : cols ≠ []) (hW : 1 ≤ W)
    {act : List sqi_colorstruc} {zer : List (Nat × Nat)}
    (heq : sq_stage_dn cols = (act, zer)) (hD : W < act.length) :
    ((sq_split_loop W W [mkGroup act none]).2 = false ∧
      (sq_stage_groups cols W).length = W) ∧
    ∀ gs, GoodGroups act gs → gs ≠ [] → gs.length < W →
      2 ≤ (selectedGroup gs).cols.length ∧ 1 ≤ (selectedGroup gs).sum ∧
      sqi_cut_group (selectedGroup gs).cols (selectedGroup gs).comp
        (selectedGroup gs).sum ≠ none := by
  obtain ⟨d1, d2, d3, d4, d5, d6, d7, d8⟩ := sq_stage_dn_facts cols hne heq
  obtain ⟨hglen, hGood, hbrk, hgne⟩ := sq_stage_groups_spec cols W hne hW heq hD
  refine ⟨⟨hbrk, hglen⟩, ?_⟩
  intro gs hG hne2 hlen
  obtain ⟨h2, h1s, front, back, hcut, _, _, _⟩ :=
    split_step_good d3 d2 hG hne2 (by omega)
  refine ⟨h2, h1s, ?_⟩
  rw [hcut]
  exact fun h => Option.noConfusion h

set_option maxRecDepth 10000 in
/-- C10 witness: two distinct colors at width 1 exceed the request; the
loop ends immediately with one group and no break. -/
theorem C10_no_null_cut_witness :
    (([((0 : Nat), (0 : Nat), (0 : Nat)), ((1 : Nat), (0 : Nat), (0 : Nat))] : List RGB) ≠ [] ∧
      sq_stage_dn [(0, 0, 0), (1, 0, 0)] = ([⟨0, 0, 0, 0⟩, ⟨1, 1, 0, 0⟩], []) ∧
      1 < ([⟨0, 0, 0, 0⟩, (⟨1, 1, 0, 0⟩ : sqi_colorstruc)]).length) ∧
    (((sq_split_loop 1 1 [mkGroup [⟨0, 0, 0, 0⟩, ⟨1, 1, 0, 0⟩] none]).2 = false ∧
        (sq_stage_groups [(0, 0, 0), (1, 0, 0)] 1).length = 1) ∧
      ∀ gs, GoodGroups [⟨0, 0, 0, 0⟩, ⟨1, 1, 0, 0⟩] gs → gs ≠ [] → gs.length < 1 →
        2 ≤ (selectedGroup gs).cols.length ∧ 1 ≤ (selectedGroup gs).sum ∧
        sqi_cut_group (selectedGroup gs).cols (selectedGroup gs).comp
          (selectedGroup gs).sum ≠ none) := by
  have heq : sq_stage_dn [(0, 0, 0), (1, 0, 0)] = ([⟨0, 0, 0, 0⟩, ⟨1, 1, 0, 0⟩], []) := by
    decide
  exact ⟨⟨by decide, heq, by decide⟩,
    C10_no_null_cut [(0, 0, 0), (1, 0, 0)] 1 (by decide) (le_refl 1) heq (by decide)⟩

/-- C9 witness: a single color at width 1 with surplus fuel 3. -/
theorem C9_split_loop_terminates_witness :
    (1 ≤ 1 ∧ 1 ≤ 3) ∧
    (sq_split_loop 1 3 [mkGroup (sq_stage_dn [((0 : Nat), (0 : Nat), (0 : Nat))]).1 none] =
        sq_split_loop 1 1 [mkGroup (sq_stage_dn [((0 : Nat), (0 : Nat), (0 : Nat))]).1 none] ∧
      (sq_split_loop 1 3
        [mkGroup (sq_stage_dn [((0 : Nat), (0 : Nat), (0 : Nat))]).1 none]).1.length ≤ 1) :=
  ⟨⟨le_refl 1, by omega⟩,
    C9_split_loop_terminates [(0, 0, 0)] 1 3 (le_refl 1) (by omega)⟩

/-- C8 counterexample: 257 distinct colors at requested width 257 take the
Fits path and return achieved width 257, but palette indices are stored
into unsigned char bytes, so every index-map byte is below 256 and no
original index maps to slot 256 even though 256 is below the achieved
width. -/
theorem C8_counterexample :
    ∃ r, sq_reduce C8ex 257 = some r ∧ r.width = 257 ∧
      ∀ i, r.idxmap.getD i 0 ≠ 256 := by
  obtain ⟨hlen, hD⟩ := C8ex_facts
  have hne : C8ex ≠ [] := by
    intro h
    rw [h] at hlen
    exact absurd hlen (by decide)
  have hr := fits_truncation C8ex 257 hne (by omega) (by omega) (by omega)
  rw [hlen] at hr
  exact hr

end SolQMedian
